import Mathlib

/-!
Verification development for the geosensors FROST ingestion pipeline
(`bd-loaders/loader-rudn/ingest_frost.py` and `bd-loaders/loader/ingest_frost.py`).

The two Python loader variants are shallowly embedded here:
* timestamps are modelled as `ℤ` (seconds since the epoch, UTC; `datetime`
  flooring of minute/second/microsecond is Euclidean flooring to a multiple
  of 3600),
* numeric observation values and SQL `double precision` arithmetic are
  modelled exactly over `ℚ` (the idealisation of IEEE doubles standard for
  this kind of development), with Python's `round(x, d)` modelled as exact
  half-to-even decimal rounding over `ℚ`,
* the `observation_hour`, `ingestion_state`, `location` and `thing_location`
  tables are modelled as functions from their key columns to an optional row,
* `resolve_location_id` is abstracted as a function from an hour to an
  optional location id (the `thing_location` table is not mutated during an
  aggregation call, so the memoised SQL lookup is a pure function of the
  hour for a fixed thing).
-/

set_option maxRecDepth 8000

namespace GeoSensors

/-! ### Python `round(x, d)` over exact rationals -/

/-- Python `round` to an integer: nearest integer, ties to even. -/
def pyRound (q : ℚ) : ℤ :=
  let f := ⌊q⌋
  let r : ℚ := q - f
  if r < 1/2 then f
  else if 1/2 < r then f + 1
  else if f % 2 = 0 then f else f + 1

/-- Python `round(q, d)`: round to `d` decimal places, ties to even. -/
def roundTo (d : ℕ) (q : ℚ) : ℚ := (pyRound (q * (10 : ℚ) ^ d) : ℚ) / (10 : ℚ) ^ d

/-! ### Hour flooring

`floor_hour` in both loaders replaces minute, second and microsecond of a
UTC datetime by zero, i.e. floors the epoch timestamp to a multiple of 3600.
`%` on `ℤ` is `Int.emod`, which is nonnegative for a positive modulus, so
this is genuine flooring also for pre-1970 instants. -/

def floorHour (t : ℤ) : ℤ := t - t % 3600

/-- A raw observation point `(phenomenon time, numeric value)`, as handed to
`aggregate_and_upsert_hourly` after parsing. -/
abbrev Point := ℤ × ℚ

/-! ### Per-hour accumulators (`buckets` dictionaries)

`loader-rudn` keeps `{"sum", "min", "max", "cnt", "last_ts"}` per hour;
`loader` (HSE) keeps `{"sum", "min", "max", "cnt"}`.  Both initialise from
the first point of the hour and fold the remaining points in order. -/

structure Acc where
  sum : ℚ
  min : ℚ
  max : ℚ
  cnt : ℕ
  last : ℤ
deriving DecidableEq, Repr

/-- One `loader-rudn` bucket update for an already-present hour:
`b["sum"] += fv; b["cnt"] += 1; if fv < b["min"] ...; if ts > b["last_ts"] ...`. -/
def accStep (a : Acc) (t : ℤ) (v : ℚ) : Acc :=
  { sum := a.sum + v
    min := if v < a.min then v else a.min
    max := if a.max < v then v else a.max
    cnt := a.cnt + 1
    last := if a.last < t then t else a.last }

/-- Fresh `loader-rudn` bucket: `{"sum": 0.0, "min": fv, "max": fv, "cnt": 0,
"last_ts": ts}` immediately followed by the update statements. -/
def accNew (t : ℤ) (v : ℚ) : Acc := accStep ⟨0, v, v, 0, t⟩ t v

/-- Python-dict update of the hour-keyed bucket association list, preserving
insertion order. -/
def updateBuckets (bs : List (ℤ × Acc)) (h t : ℤ) (v : ℚ) : List (ℤ × Acc) :=
  match bs with
  | [] => [(h, accNew t v)]
  | (h₂, a) :: rest =>
      if h₂ = h then (h₂, accStep a t v) :: rest
      else (h₂, a) :: updateBuckets rest h t v

/-- The bucketing loop of `aggregate_and_upsert_hourly`. -/
def mkBuckets (ps : List Point) : List (ℤ × Acc) :=
  ps.foldl (fun bs p => updateBuckets bs (floorHour p.1) p.1 p.2) []

/-- The `if x is None or t > x: x = t` update pattern used for the running
latest timestamp in both loaders. -/
def optMaxStep (acc : Option ℤ) (t : ℤ) : Option ℤ :=
  match acc with
  | none => some t
  | some l => if l < t then some t else some l

/-- The running `last_ts` of a call:
`if last_ts is None or ts > last_ts: last_ts = ts`, over all points. -/
def lastTs (ps : List Point) : Option ℤ :=
  ps.foldl (fun acc p => optMaxStep acc p.1) none

/-- Python-dict lookup in the bucket association list. -/
def lookupB (bs : List (ℤ × Acc)) (h : ℤ) : Option Acc :=
  match bs with
  | [] => none
  | (h₂, a) :: rest => if h₂ = h then some a else lookupB rest h

/-! ### The `observation_hour` fact table, `loader-rudn` variant

Rows are keyed by `(datastream_id, location_id, hour)`; the datastream id is
fixed throughout one call, so the table is modelled keyed by
`(location_id, hour)`.  Non-key metadata columns (`thing_id`) are omitted. -/

structure RowR where
  avg : ℚ
  min : ℚ
  max : ℚ
  cnt : ℕ
deriving DecidableEq, Repr

abbrev TableR := ℤ × ℤ → Option RowR

/-- The `INSERT ... ON CONFLICT (datastream_id, location_id, hour) DO UPDATE`
of `loader-rudn`: insert `(round(sum/cnt, 3), min, max, cnt)`, and on
conflict take the cnt-weighted mean of the stored average and the (rounded)
bucket average, `LEAST`/`GREATEST` of the minima/maxima, and the sum of the
counts. -/
def mergeRowR (old : Option RowR) (a : Acc) : RowR :=
  match old with
  | none => ⟨roundTo 3 (a.sum / a.cnt), a.min, a.max, a.cnt⟩
  | some r =>
      ⟨(r.avg * r.cnt + roundTo 3 (a.sum / a.cnt) * a.cnt) / ((r.cnt : ℚ) + a.cnt),
       min a.min r.min, max a.max r.max, r.cnt + a.cnt⟩

def upsertR (t : TableR) (loc hour : ℤ) (a : Acc) : TableR :=
  fun k => if k = (loc, hour) then some (mergeRowR (t (loc, hour)) a) else t k

/-- The per-thing diagnostic skip counter (`skipped_counter` dict). -/
abbrev Ctr := ℤ → ℕ

def bump (c : Ctr) (tid : ℤ) : Ctr :=
  fun k => if k = tid then c tid + 1 else c k

/-- One iteration of the `for hour, a in buckets.items()` loop of
`loader-rudn`: resolve the location at the bucket hour; on a miss increment
the thing's skip counter and write nothing, otherwise merge-upsert. -/
def stepR (resolve : ℤ → Option ℤ) (tid : ℤ) (st : TableR × Ctr) (ha : ℤ × Acc) :
    TableR × Ctr :=
  match resolve ha.1 with
  | none => (st.1, bump st.2 tid)
  | some loc => (upsertR st.1 loc ha.1 ha.2, st.2)

/-- `aggregate_and_upsert_hourly` of `loader-rudn`: bucket the points by
hour, fold the buckets into the fact table, and return the latest raw
timestamp seen (`last_ts`). -/
def aggregateRudn (resolve : ℤ → Option ℤ) (tid : ℤ) (st : TableR × Ctr)
    (ps : List Point) : (TableR × Ctr) × Option ℤ :=
  ((mkBuckets ps).foldl (stepR resolve tid) st, lastTs ps)

/-! ### The `observation_hour` fact table, `loader` (HSE) variant

Rows are keyed by `(datastream_id, hour)` (strict uniqueness index); the
location is a non-key column overwritten on conflict.  The bucket
accumulator has no `last_ts` field and is initialised directly to
`{"sum": fv, "min": fv, "max": fv, "cnt": 1}`. -/

structure AccH where
  sum : ℚ
  min : ℚ
  max : ℚ
  cnt : ℕ
deriving DecidableEq, Repr

def accStepH (a : AccH) (v : ℚ) : AccH :=
  { sum := a.sum + v
    min := if v < a.min then v else a.min
    max := if a.max < v then v else a.max
    cnt := a.cnt + 1 }

def accNewH (v : ℚ) : AccH := ⟨v, v, v, 1⟩

def updateBucketsH (bs : List (ℤ × AccH)) (h : ℤ) (v : ℚ) : List (ℤ × AccH) :=
  match bs with
  | [] => [(h, accNewH v)]
  | (h₂, a) :: rest =>
      if h₂ = h then (h₂, accStepH a v) :: rest
      else (h₂, a) :: updateBucketsH rest h v

def mkBucketsH (ps : List Point) : List (ℤ × AccH) :=
  ps.foldl (fun bs p => updateBucketsH bs (floorHour p.1) p.2) []

def lookupBH (bs : List (ℤ × AccH)) (h : ℤ) : Option AccH :=
  match bs with
  | [] => none
  | (h₂, a) :: rest => if h₂ = h then some a else lookupBH rest h

structure RowH where
  loc : ℤ
  avg : ℚ
  min : ℚ
  max : ℚ
  cnt : ℕ
deriving DecidableEq, Repr

abbrev TableH := ℤ → Option RowH

/-- The `INSERT ... ON CONFLICT (datastream_id, hour) DO UPDATE` of the HSE
loader: the stored location and average are overwritten by the new bucket's
(`EXCLUDED`) values, while min/max merge and the counts add.  The
`VALUES` row carries `round(sum/cnt, 2)` as the average and the raw bucket
min/max (the rounded `min_val`/`max_val` locals are computed but not the
values actually passed). -/
def mergeRowH (loc : ℤ) (old : Option RowH) (a : AccH) : RowH :=
  match old with
  | none => ⟨loc, roundTo 2 (a.sum / a.cnt), a.min, a.max, a.cnt⟩
  | some r =>
      ⟨loc, roundTo 2 (a.sum / a.cnt), min a.min r.min, max a.max r.max, r.cnt + a.cnt⟩

def upsertH (t : TableH) (loc hour : ℤ) (a : AccH) : TableH :=
  fun k => if k = hour then some (mergeRowH loc (t hour) a) else t k

/-- One iteration of the bucket loop of the HSE loader; the skip counter is
the local `skipped` tally (one per skipped bucket). -/
def stepH (resolve : ℤ → Option ℤ) (st : TableH × ℕ) (ha : ℤ × AccH) : TableH × ℕ :=
  match resolve ha.1 with
  | none => (st.1, st.2 + 1)
  | some loc => (upsertH st.1 loc ha.1 ha.2, st.2)

/-- `aggregate_and_upsert_hourly` of the HSE loader: returns the updated
table, the number of skipped buckets, and `last_ts`. -/
def aggregateHse (resolve : ℤ → Option ℤ) (st : TableH × ℕ) (ps : List Point) :
    (TableH × ℕ) × Option ℤ :=
  ((mkBucketsH ps).foldl (stepH resolve) st, lastTs ps)

/-! ### Spec-side descriptions of a bucket's statistics -/

/-- Sum of the numeric values of a point list. -/
def sumVals (ps : List Point) : ℚ := (ps.map Prod.snd).sum

/-- Combination of two accumulators: what folding a second batch of raw
points into an hour should amount to. -/
def accComb (a b : Acc) : Acc :=
  ⟨a.sum + b.sum, min a.min b.min, max a.max b.max, a.cnt + b.cnt, max a.last b.last⟩

/-- Fold further points into an existing accumulator. -/
def accFoldA (a : Acc) (ps : List Point) : Acc :=
  ps.foldl (fun a p => accStep a p.1 p.2) a

/-- The accumulator a point list produces (`none` for the empty list). -/
def accOf : List Point → Option Acc
  | [] => none
  | p :: ps => some (accFoldA (accNew p.1 p.2) ps)

def accCombH (a b : AccH) : AccH :=
  ⟨a.sum + b.sum, min a.min b.min, max a.max b.max, a.cnt + b.cnt⟩

def accFoldAH (a : AccH) (ps : List Point) : AccH :=
  ps.foldl (fun a p => accStepH a p.2) a

def accOfH : List Point → Option AccH
  | [] => none
  | p :: ps => some (accFoldAH (accNewH p.2) ps)

/-- Projection of a fact row to its `(min, max, cnt)` components. -/
def mmcR (r : Option RowR) : Option (ℚ × ℚ × ℕ) :=
  r.map (fun r => (r.min, r.max, r.cnt))

def mmcH (r : Option RowH) : Option (ℚ × ℚ × ℕ) :=
  r.map (fun r => (r.min, r.max, r.cnt))

/-- Empty fact-table state (no rows, all skip counters zero). -/
def emptyStR : TableR × Ctr := (fun _ => none, fun _ => 0)

def emptyStH : TableH × ℕ := (fun _ => none, 0)

/-- A `resolve_location_id` that always resolves to location 1. -/
def resolveTo1 : ℤ → Option ℤ := fun _ => some 1

/-- A `resolve_location_id` that always misses. -/
def resolveNone : ℤ → Option ℤ := fun _ => none

/-! ### Watermark logic (`ingest_observations` / `ingest_ds_observations`)

One datastream's pass over its observation stream is modelled by the list of
batches handed to `aggregate_and_upsert_hourly` (the `BATCH_SIZE` chunking
plus the final flush).  Only the watermark computation is modelled here; the
fact-table writes are covered by the aggregation model above. -/

/-- HSE loader, one batch: `last_ts = aggregate_and_upsert_hourly(...)`
(which returns the batch's `lastTs`), then
`if last_ts and last_ts > latest: latest = last_ts`. -/
def hseStep (latest : ℤ) (b : List Point) : ℤ :=
  match lastTs b with
  | none => latest
  | some l => if latest < l then l else latest

/-- The `latest` value after the whole per-datastream loop, starting from
the watermark. -/
def hseLatest (wm : ℤ) (batches : List (List Point)) : ℤ :=
  batches.foldl hseStep wm

/-- HSE loader: `set_watermark` is called iff `latest > wm`; returns the
value passed to `set_watermark`, if any. -/
def hsePass (wm : ℤ) (batches : List (List Point)) : Option ℤ :=
  if wm < hseLatest wm batches then some (hseLatest wm batches) else none

/-- `loader-rudn`, one batch:
`if l and (last_ts is None or l > last_ts): last_ts = l`. -/
def rudnStep (acc : Option ℤ) (b : List Point) : Option ℤ :=
  match lastTs b with
  | none => acc
  | some l => optMaxStep acc l

/-- `loader-rudn`: `last_ts` starts at `None`; `set_watermark` is called iff
it is set, with that value. -/
def rudnPass (batches : List (List Point)) : Option ℤ :=
  batches.foldl rudnStep none

/-! ### `ingest_md_observations`: composite-stream watermarks -/

/-- `get_watermark`: the stored `last_time` for the datastream, or the
configured default start. -/
def getWatermark (tbl : ℤ → Option ℤ) (dsId : ℤ) (dflt : ℤ) : ℤ :=
  (tbl dsId).getD dflt

/-- The watermark used to build the `$filter` for a composite stream: the
stored watermark of virtual component 0 (`md_id * 100 + 0`). -/
def mdStartWm (tbl : ℤ → Option ℤ) (mdId : ℤ) (dflt : ℤ) : ℤ :=
  getWatermark tbl (mdId * 100 + 0) dflt

/-- One raw multi-observation as seen by the ingestion loop: `ts` is the
parsed `phenomenonTime` (`none` when missing or unparseable), `res` is the
`result` array (`none` when missing or not a list), with unparseable
component values as `none` entries. -/
structure MdObs where
  ts : Option ℤ
  res : Option (List (Option ℚ))

/-- One observation's effect on `latest_ts`: the loop `continue`s unless the
time parses and the result is a list, and otherwise raises `latest_ts`. -/
def mdStep (latest : Option ℤ) (o : MdObs) : Option ℤ :=
  match o.ts, o.res with
  | some dt, some _ => optMaxStep latest dt
  | _, _ => latest

/-- The running `latest_ts` over the observation loop: updated for every
observation that has a parseable time and a list-shaped result, regardless
of whether any component value parses.  (The `flush_buffers` update from
`aggregate_and_upsert_hourly`'s return value can never exceed this, since
every buffered point's time was already folded in here first.) -/
def mdLatest (obs : List MdObs) : Option ℤ :=
  obs.foldl mdStep none

/-- The `set_watermark` calls issued after a composite stream's pass:
for `idx in range(20)`, every virtual datastream id `md_id * 100 + idx`
present in the `datastream` table receives the same `latest_ts` — and none
are issued when no observation produced a timestamp. -/
def setWatermarkCallsMd (mdId : ℤ) (existing : ℤ → Bool) (latest : Option ℤ) :
    List (ℤ × ℤ) :=
  match latest with
  | none => []
  | some t => (List.range 20).filterMap (fun (idx : ℕ) =>
      if existing (mdId * 100 + (idx : ℤ)) then some (mdId * 100 + (idx : ℤ), t) else none)

/-! ### `thing_location` interval construction (`upsert_locations_things`)

An event is a `(time, location_id)` pair extracted from a Thing's
`HistoricalLocations`; the sentinel `datetime.max` end is modelled as `⊤`
in `WithTop ℤ`. -/

structure TLInterval where
  location_id : ℤ
  start_time : ℤ
  end_time : WithTop ℤ
deriving DecidableEq

/-- The exclusive end for the interval of an event followed by `rest`: the
next event's time, or the `datetime.max` sentinel for the last event. -/
def nextEnd : List (ℤ × ℤ) → WithTop ℤ
  | [] => ⊤
  | e₂ :: _ => (e₂.1 : WithTop ℤ)

instance : DecidableRel (fun a b : ℤ × ℤ => a.1 ≤ b.1) :=
  fun a b => Int.decLe a.1 b.1

instance : IsTotal (ℤ × ℤ) (fun a b : ℤ × ℤ => a.1 ≤ b.1) :=
  ⟨fun a b => le_total a.1 b.1⟩

instance : IsTrans (ℤ × ℤ) (fun a b : ℤ × ℤ => a.1 ≤ b.1) :=
  ⟨fun _ _ _ => le_trans⟩

/-- Stable ascending sort by event time (`events.sort(key=time)` /
`rows.sort(key=lambda x: x[0])`; Python's sort is stable, and a stable sort
by a key is unique, so the structural insertion sort models it exactly). -/
def sortEvents (es : List (ℤ × ℤ)) : List (ℤ × ℤ) :=
  es.insertionSort (fun a b => a.1 ≤ b.1)

/-- HSE loader interval construction over the sorted event list: each
event's location is valid from its time until the next event's time (the
last until `datetime.max`), and an interval is kept only if
`start < end`. -/
def mkIntervalsH : List (ℤ × ℤ) → List TLInterval
  | [] => []
  | e :: rest =>
      if (e.1 : WithTop ℤ) < nextEnd rest then
        ⟨e.2, e.1, nextEnd rest⟩ :: mkIntervalsH rest
      else mkIntervalsH rest

/-- `loader-rudn` interval construction over the sorted rows: same
half-open intervals, without the `start < end` guard. -/
def mkIntervalsRudn : List (ℤ × ℤ) → List TLInterval
  | [] => []
  | e :: rest => ⟨e.2, e.1, nextEnd rest⟩ :: mkIntervalsRudn rest

/-- Full HSE construction from an unsorted event log. -/
def buildIntervalsH (es : List (ℤ × ℤ)) : List TLInterval :=
  mkIntervalsH (sortEvents es)

/-- Full `loader-rudn` construction: when a location allow-list is
configured (`TARGET_LOCATIONS` nonempty), an interval row is only inserted
if its location id is allowed; `none` models no filter. -/
def buildIntervalsRudn (allowed : Option (List ℤ)) (es : List (ℤ × ℤ)) : List TLInterval :=
  match allowed with
  | none => mkIntervalsRudn (sortEvents es)
  | some al => (mkIntervalsRudn (sortEvents es)).filter (fun iv => iv.location_id ∈ al)

/-- Two half-open `[start, end)` ranges do not overlap. -/
def NonOverlap (a b : TLInterval) : Prop :=
  a.end_time ≤ (b.start_time : WithTop ℤ) ∨ b.end_time ≤ (a.start_time : WithTop ℤ)

/-- Contiguity of consecutive intervals: each interval's end is the next
interval's start. -/
def Contig (a b : TLInterval) : Prop :=
  a.end_time = (b.start_time : WithTop ℤ)

/-! ### `frost_get`: paginated fetch with retry/backoff -/

/-- The server's response to one HTTP GET: a 404, a retryable failure (5xx,
network error, malformed JSON), or a page of values plus whether an
`@iot.nextLink` is present. -/
inductive FrostResp
  | notFound
  | err
  | ok (vals : List ℕ) (next : Bool)
deriving DecidableEq

/-- Outcome of the inner retry loop for one page. -/
inductive PageRes
  | gone
  | got (vals : List ℕ) (next : Bool)
  | failed
deriving DecidableEq

/-- The `for attempt in range(retries)` loop for a single page request.
`resp i` is the server's behaviour on attempt `i`; the result carries the
list of backoff sleeps (`backoff * 2 ** attempt`, `backoff = 0.8`)
performed, one per failed attempt (including the last, after which the
loop's `else` raises `RuntimeError`). -/
def attemptPage (resp : ℕ → FrostResp) : ℕ → ℕ → PageRes × List ℚ
  | 0, _ => (.failed, [])
  | n + 1, i =>
      match resp i with
      | .notFound => (.gone, [])
      | .ok vals next => (.got vals next, [])
      | .err =>
          let r := attemptPage resp n (i + 1)
          (r.1, (4/5 : ℚ) * 2 ^ i :: r.2)

/-- What a whole `frost_get` generator run produced: the yielded entity
records, whether it terminated normally (`ok = false` models the
`RuntimeError` after exhausted retries), and every backoff sleep. -/
structure FetchResult where
  yielded : List ℕ
  ok : Bool
  sleeps : List ℚ
deriving DecidableEq

/-- The `frost_get` generator: pages are numbered from 0, `world p i` is
the server's behaviour for page `p`, attempt `i`; after a successful page
its values are yielded and the `@iot.nextLink` (if any) is followed with a
fresh retry budget.  `fuel` bounds the number of pages followed (the real
generator runs until a page has no next link). -/
def frostGet (world : ℕ → ℕ → FrostResp) : ℕ → ℕ → FetchResult
  | 0, _ => ⟨[], true, []⟩
  | fuel + 1, p =>
      match attemptPage (world p) 4 0 with
      | (.gone, sl) => ⟨[], true, sl⟩
      | (.failed, sl) => ⟨[], false, sl⟩
      | (.got vals true, sl) =>
          let r := frostGet world fuel (p + 1)
          ⟨vals ++ r.yielded, r.ok, sl ++ r.sleeps⟩
      | (.got vals false, sl) => ⟨vals, true, sl⟩

/-! ### `location` catalog upsert (geometry frame condition) -/

structure LocRow where
  name : Option String
  geom : Option (ℚ × ℚ)
deriving DecidableEq

/-- The `INSERT INTO location ... ON CONFLICT(location_id) DO UPDATE SET
name = EXCLUDED.name, geom = COALESCE(EXCLUDED.geom, location.geom)`
statement shared by both loaders; `coords` is `none` when the remote record
yielded no parseable coordinates (the inserted geometry expression is then
`NULL`). -/
def upsertLocation (tbl : ℤ → Option LocRow) (lid : ℤ) (nm : Option String)
    (coords : Option (ℚ × ℚ)) : ℤ → Option LocRow :=
  fun k =>
    if k = lid then
      some (match tbl lid with
        | none => ⟨nm, coords⟩
        | some r => ⟨nm, match coords with | some c => some c | none => r.geom⟩)
    else tbl k

/-! ### `norm_bigint_id`: identity normalisation (loader-rudn) -/

/-- 32-bit truncation. -/
def w32 (n : ℕ) : ℕ := n % 4294967296

/-- 32-bit left rotation (applied to values `< 2^32`). -/
def rotl (k n : ℕ) : ℕ := w32 ((n <<< k) ||| (n >>> (32 - k)))

def sha1K (t : ℕ) : ℕ :=
  if t < 20 then 1518500249
  else if t < 40 then 1859775393
  else if t < 60 then 2400959708
  else 3395469782

def sha1F (t b c d : ℕ) : ℕ :=
  if t < 20 then (b &&& c) ||| ((4294967295 ^^^ b) &&& d)
  else if t < 40 then b ^^^ c ^^^ d
  else if t < 60 then (b &&& c) ||| (b &&& d) ||| (c &&& d)
  else b ^^^ c ^^^ d

/-- Big-endian byte expansion, fixed width. -/
def bytesBE : ℕ → ℕ → List ℕ
  | 0, _ => []
  | k + 1, n => bytesBE k (n / 256) ++ [n % 256]

/-- Group a byte list into big-endian 32-bit words. -/
def wordsOfBytes : List ℕ → List ℕ
  | b0 :: b1 :: b2 :: b3 :: rest =>
      (((b0 * 256 + b1) * 256 + b2) * 256 + b3) :: wordsOfBytes rest
  | _ => []

def extendStep (ws : List ℕ) : List ℕ :=
  ws ++ [rotl 1 ((ws.getD (ws.length - 3) 0) ^^^ (ws.getD (ws.length - 8) 0) ^^^
                 (ws.getD (ws.length - 14) 0) ^^^ (ws.getD (ws.length - 16) 0))]

/-- Extend the 16 message-schedule words by `k` more. -/
def extendWords (ws : List ℕ) : ℕ → List ℕ
  | 0 => ws
  | k + 1 => extendWords (extendStep ws) k

def sha1Rounds (ws : List ℕ) (hs : ℕ × ℕ × ℕ × ℕ × ℕ) : ℕ × ℕ × ℕ × ℕ × ℕ :=
  ws.enum.foldl (fun st iw =>
    let temp := w32 (rotl 5 st.1 + sha1F iw.1 st.2.1 st.2.2.1 st.2.2.2.1 +
                     st.2.2.2.2 + sha1K iw.1 + iw.2)
    (temp, st.1, rotl 30 st.2.1, st.2.2.1, st.2.2.2.1)) hs

def sha1Chunk (hs : ℕ × ℕ × ℕ × ℕ × ℕ) (chunk : List ℕ) : ℕ × ℕ × ℕ × ℕ × ℕ :=
  let ws := extendWords (wordsOfBytes chunk) 64
  let r := sha1Rounds ws hs
  (w32 (hs.1 + r.1), w32 (hs.2.1 + r.2.1), w32 (hs.2.2.1 + r.2.2.1),
   w32 (hs.2.2.2.1 + r.2.2.2.1), w32 (hs.2.2.2.2 + r.2.2.2.2))

/-- SHA-1 padding: `0x80`, zeros to 56 mod 64, then the 64-bit big-endian
bit length. -/
def sha1Pad (msg : List ℕ) : List ℕ :=
  msg ++ 128 :: List.replicate ((119 - msg.length % 64) % 64) 0 ++ bytesBE 8 (msg.length * 8)

/-- `int.from_bytes(sha1(msg).digest()[:8], "big")`: the first eight digest
bytes are the first two state words, big-endian. -/
def sha1First8 (msg : List ℕ) : ℕ :=
  let hs := ((sha1Pad msg).toChunks 64).foldl sha1Chunk
    (1732584193, 4023233417, 2562383102, 271733878, 3285377520)
  hs.1 * 4294967296 + hs.2.1

/-- Unicode code points of a string. -/
def cps (s : String) : List ℕ := s.data.map Char.toNat

/-- UTF-8 encoding of one code point. -/
def utf8Char (n : ℕ) : List ℕ :=
  if n < 128 then [n]
  else if n < 2048 then [192 + n / 64, 128 + n % 64]
  else if n < 65536 then [224 + n / 4096, 128 + n / 64 % 64, 128 + n % 64]
  else [240 + n / 262144, 128 + n / 4096 % 64, 128 + n / 64 % 64, 128 + n % 64]

def utf8 (cs : List ℕ) : List ℕ := (cs.map utf8Char).flatten

/-- ASCII whitespace, as stripped by `str.strip()` on the ids in scope. -/
def isWsB (c : ℕ) : Bool := c = 32 || c = 9 || c = 10 || c = 11 || c = 12 || c = 13

def stripWs (cs : List ℕ) : List ℕ :=
  ((cs.dropWhile isWsB).reverse.dropWhile isWsB).reverse

def digitVal (c : ℕ) : Option ℕ :=
  if 48 ≤ c ∧ c ≤ 57 then some (c - 48) else none

/-- Python `int()` digit-run parsing after the first digit: underscores are
allowed as separators but must sit between two digits. -/
def parsePyIntRest (acc : ℕ) : List ℕ → Option ℕ
  | [] => some acc
  | c :: cs =>
      match digitVal c with
      | some d => parsePyIntRest (acc * 10 + d) cs
      | none =>
          if c = 95 then
            match cs with
            | c₂ :: cs₂ =>
                match digitVal c₂ with
                | some d => parsePyIntRest (acc * 10 + d) cs₂
                | none => none
            | [] => none
          else none

def parsePyIntDigits : List ℕ → Option ℕ
  | [] => none
  | c :: cs =>
      match digitVal c with
      | some d => parsePyIntRest d cs
      | none => none

/-- Python `int(s)` on an already-stripped code-point list. -/
def parsePyInt (s : List ℕ) : Option ℤ :=
  match s with
  | 43 :: rest => (parsePyIntDigits rest).map (fun n => (n : ℤ))
  | 45 :: rest => (parsePyIntDigits rest).map (fun n => -(n : ℤ))
  | _ => (parsePyIntDigits s).map (fun n => (n : ℤ))

/-- A raw remote `@iot.id`: an integer or an opaque string. (`None` raises
in the source and is outside the function's value domain.) -/
inductive RawId
  | int (n : ℤ)
  | str (s : String)

def BIG_STR_OFFSET : ℕ := 800000000000000

/-- The hashed-id branch: SHA-1 of the UTF-8 bytes of `f"{kind}:{sraw}"`
(58 is the code point of the colon), first 8 digest bytes big-endian,
reduced into the reserved offset range. -/
def hashId (kind : String) (sraw : List ℕ) : ℤ :=
  (BIG_STR_OFFSET : ℤ) +
    ((sha1First8 (utf8 (cps kind ++ 58 :: sraw)) % 100000000000000 : ℕ) : ℤ)

/-- `norm_bigint_id(raw, kind)`: integers (and integer-parsing strings) pass
through verbatim; other strings are hashed into the reserved range
`[BIG_STR_OFFSET, BIG_STR_OFFSET + 10^14)`. -/
def norm_bigint_id (raw : RawId) (kind : String) : ℤ :=
  match raw with
  | .int n => n
  | .str s =>
      match parsePyInt (stripWs (cps s)) with
      | some n => n
      | none => hashId kind (stripWs (cps s))

/-! ## Lemmas: running maxima -/

theorem optMaxStep_some (x t : ℤ) : optMaxStep (some x) t = some (max x t) := by
  show (if x < t then some t else some x) = some (max x t)
  rcases lt_or_le x t with h | h
  · rw [if_pos h, max_eq_right h.le]
  · rw [if_neg (not_lt.mpr h), max_eq_left h]

theorem foldl_optMax_some (l : List ℤ) : ∀ x : ℤ,
    l.foldl optMaxStep (some x) = some (l.foldl max x) := by
  induction l with
  | nil => intro x; rfl
  | cons a l ih => intro x; rw [List.foldl_cons, optMaxStep_some, ih, List.foldl_cons]

theorem foldl_optMax_none (l : List ℤ) : l.foldl optMaxStep none = l.max? := by
  cases l with
  | nil => rfl
  | cons a l =>
      rw [List.foldl_cons]
      show l.foldl optMaxStep (some a) = _
      rw [foldl_optMax_some]
      rfl

theorem lastTs_eq_max? (ps : List Point) : lastTs ps = (ps.map Prod.fst).max? := by
  rw [← foldl_optMax_none, lastTs, List.foldl_map]

theorem foldl_max_mem (xs : List ℤ) : ∀ x : ℤ, xs.foldl max x ∈ x :: xs := by
  induction xs with
  | nil => intro x; simp
  | cons y ys ih =>
      intro x
      rw [List.foldl_cons]
      rcases List.mem_cons.mp (ih (max x y)) with h1 | h1
      · rcases max_choice x y with e | e
        · exact List.mem_cons.mpr (Or.inl (h1.trans e))
        · exact List.mem_cons.mpr (Or.inr (List.mem_cons.mpr (Or.inl (h1.trans e))))
      · exact List.mem_cons.mpr (Or.inr (List.mem_cons.mpr (Or.inr h1)))

theorem foldl_max_ge (xs : List ℤ) : ∀ x : ℤ, x ≤ xs.foldl max x ∧ ∀ y ∈ xs, y ≤ xs.foldl max x := by
  induction xs with
  | nil => intro x; simp
  | cons z zs ih =>
      intro x
      rw [List.foldl_cons]
      refine ⟨le_trans (le_max_left x z) (ih (max x z)).1, ?_⟩
      intro y hy
      rcases List.mem_cons.mp hy with rfl | hy
      · exact le_trans (le_max_right x y) (ih (max x y)).1
      · exact (ih (max x z)).2 y hy

theorem lastTs_none_iff (ps : List Point) : lastTs ps = none ↔ ps = [] := by
  rw [lastTs_eq_max?]
  cases ps with
  | nil => simp [List.max?]
  | cons p ps => simp [List.max?]

theorem lastTs_mem (ps : List Point) (v : ℤ) (h : lastTs ps = some v) :
    v ∈ ps.map Prod.fst := by
  rw [lastTs_eq_max?] at h
  cases hm : ps.map Prod.fst with
  | nil => rw [hm] at h; simp [List.max?] at h
  | cons x xs =>
      rw [hm] at h
      have : xs.foldl max x = v := by
        have := h
        rw [show (x :: xs).max? = some (xs.foldl max x) from rfl] at this
        exact Option.some.inj this
      rw [← this]
      exact foldl_max_mem xs x

theorem lastTs_ge (ps : List Point) (v : ℤ) (h : lastTs ps = some v) :
    ∀ p ∈ ps, p.1 ≤ v := by
  intro p hp
  rw [lastTs_eq_max?] at h
  cases hm : ps.map Prod.fst with
  | nil => rw [hm] at h; simp [List.max?] at h
  | cons x xs =>
      rw [hm] at h
      have hv : xs.foldl max x = v :=
        Option.some.inj (by rw [show (x :: xs).max? = some (xs.foldl max x) from rfl] at h; exact h)
      have hmem : p.1 ∈ x :: xs := by
        rw [← hm]; exact List.mem_map_of_mem Prod.fst hp
      rcases List.mem_cons.mp hmem with e | e
      · rw [e, ← hv]; exact (foldl_max_ge xs x).1
      · rw [← hv]; exact (foldl_max_ge xs x).2 _ e

/-! ## Lemmas: accumulator algebra (loader-rudn) -/

theorem if_lt_eq_min (m v : ℚ) : (if v < m then v else m) = min m v := by
  rcases lt_or_le v m with h | h
  · rw [if_pos h, min_eq_right h.le]
  · rw [if_neg (not_lt.mpr h), min_eq_left h]

theorem if_lt_eq_max (m v : ℚ) : (if m < v then v else m) = max m v := by
  rcases lt_or_le m v with h | h
  · rw [if_pos h, max_eq_right h.le]
  · rw [if_neg (not_lt.mpr h), max_eq_left h]

theorem if_lt_eq_maxZ (m t : ℤ) : (if m < t then t else m) = max m t := by
  rcases lt_or_le m t with h | h
  · rw [if_pos h, max_eq_right h.le]
  · rw [if_neg (not_lt.mpr h), max_eq_left h]

theorem accNew_eq (t : ℤ) (v : ℚ) : accNew t v = ⟨v, v, v, 1, t⟩ := by
  simp [accNew, accStep]

theorem accStep_eq_comb (a : Acc) (t : ℤ) (v : ℚ) :
    accStep a t v = accComb a (accNew t v) := by
  rw [accNew_eq]
  simp only [accStep, accComb]
  rw [if_lt_eq_min, if_lt_eq_max, if_lt_eq_maxZ]

theorem accComb_assoc (a b c : Acc) :
    accComb (accComb a b) c = accComb a (accComb b c) := by
  simp [accComb, add_assoc, min_assoc, max_assoc]

theorem accFoldA_eq (ps : List Point) : ∀ a : Acc,
    accFoldA a ps = match accOf ps with | none => a | some b => accComb a b := by
  induction ps with
  | nil => intro a; rfl
  | cons p ps ih =>
      intro a
      show accFoldA (accStep a p.1 p.2) ps = _
      rw [ih]
      show _ = match some (accFoldA (accNew p.1 p.2) ps) with
               | none => a | some b => accComb a b
      rw [ih (accNew p.1 p.2)]
      cases hc : accOf ps with
      | none => simpa using accStep_eq_comb a p.1 p.2
      | some b =>
          show accComb (accStep a p.1 p.2) b = accComb a (accComb (accNew p.1 p.2) b)
          rw [accStep_eq_comb, accComb_assoc]

theorem accOf_cons (p : Point) (ps : List Point) :
    accOf (p :: ps) = some (match accOf ps with
      | none => accNew p.1 p.2
      | some b => accComb (accNew p.1 p.2) b) := by
  show some (accFoldA (accNew p.1 p.2) ps) = _
  rw [accFoldA_eq]

theorem accOf_append (xs ys : List Point) :
    accOf (xs ++ ys) = match accOf xs, accOf ys with
      | none, o => o
      | some a, none => some a
      | some a, some b => some (accComb a b) := by
  cases xs with
  | nil =>
      rw [List.nil_append]
      cases hys : accOf ys <;> rfl
  | cons x xs =>
      show some (accFoldA (accNew x.1 x.2) (xs ++ ys)) = _
      rw [show accFoldA (accNew x.1 x.2) (xs ++ ys)
            = accFoldA (accFoldA (accNew x.1 x.2) xs) ys from List.foldl_append ..]
      rw [accFoldA_eq ys]
      show _ = match some (accFoldA (accNew x.1 x.2) xs), accOf ys with
               | none, o => o
               | some a, none => some a
               | some a, some b => some (accComb a b)
      cases accOf ys <;> rfl

theorem accOf_none_iff (ps : List Point) : accOf ps = none ↔ ps = [] := by
  cases ps <;> simp [accOf]

theorem accFoldA_sum (ps : List Point) : ∀ a : Acc,
    (accFoldA a ps).sum = a.sum + sumVals ps := by
  induction ps with
  | nil => intro a; simp [accFoldA, sumVals]
  | cons p ps ih =>
      intro a
      show (accFoldA (accStep a p.1 p.2) ps).sum = _
      rw [ih]
      simp [accStep, sumVals, add_assoc]

theorem accFoldA_cnt (ps : List Point) : ∀ a : Acc,
    (accFoldA a ps).cnt = a.cnt + ps.length := by
  induction ps with
  | nil => intro a; simp [accFoldA]
  | cons p ps ih =>
      intro a
      show (accFoldA (accStep a p.1 p.2) ps).cnt = _
      rw [ih]
      simp [accStep]
      omega

theorem accFoldA_min (ps : List Point) : ∀ a : Acc,
    (accFoldA a ps).min = (ps.map Prod.snd).foldl min a.min := by
  induction ps with
  | nil => intro a; rfl
  | cons p ps ih =>
      intro a
      show (accFoldA (accStep a p.1 p.2) ps).min = _
      rw [ih]
      simp [accStep, if_lt_eq_min]

theorem accFoldA_max (ps : List Point) : ∀ a : Acc,
    (accFoldA a ps).max = (ps.map Prod.snd).foldl max a.max := by
  induction ps with
  | nil => intro a; rfl
  | cons p ps ih =>
      intro a
      show (accFoldA (accStep a p.1 p.2) ps).max = _
      rw [ih]
      simp [accStep, if_lt_eq_max]

theorem accOf_sum (ps : List Point) (a : Acc) (h : accOf ps = some a) :
    a.sum = sumVals ps := by
  cases ps with
  | nil => simp [accOf] at h
  | cons p ps =>
      have ha : accFoldA (accNew p.1 p.2) ps = a := Option.some.inj h
      rw [← ha, accFoldA_sum, accNew_eq]
      simp [sumVals]

theorem accOf_cnt (ps : List Point) (a : Acc) (h : accOf ps = some a) :
    a.cnt = ps.length := by
  cases ps with
  | nil => simp [accOf] at h
  | cons p ps =>
      have ha : accFoldA (accNew p.1 p.2) ps = a := Option.some.inj h
      rw [← ha, accFoldA_cnt, accNew_eq]
      simp
      omega

theorem accOf_min (ps : List Point) (a : Acc) (h : accOf ps = some a) :
    some a.min = (ps.map Prod.snd).min? := by
  cases ps with
  | nil => simp [accOf] at h
  | cons p ps =>
      have ha : accFoldA (accNew p.1 p.2) ps = a := Option.some.inj h
      rw [← ha, accFoldA_min, accNew_eq]
      rfl

theorem accOf_max (ps : List Point) (a : Acc) (h : accOf ps = some a) :
    some a.max = (ps.map Prod.snd).max? := by
  cases ps with
  | nil => simp [accOf] at h
  | cons p ps =>
      have ha : accFoldA (accNew p.1 p.2) ps = a := Option.some.inj h
      rw [← ha, accFoldA_max, accNew_eq]
      rfl

/-! ## Lemmas: accumulator algebra (HSE loader) -/

theorem accStepH_eq_comb (a : AccH) (v : ℚ) :
    accStepH a v = accCombH a (accNewH v) := by
  simp only [accStepH, accCombH, accNewH]
  rw [if_lt_eq_min, if_lt_eq_max]

theorem accCombH_assoc (a b c : AccH) :
    accCombH (accCombH a b) c = accCombH a (accCombH b c) := by
  simp [accCombH, add_assoc, min_assoc, max_assoc]

theorem accFoldAH_eq (ps : List Point) : ∀ a : AccH,
    accFoldAH a ps = match accOfH ps with | none => a | some b => accCombH a b := by
  induction ps with
  | nil => intro a; rfl
  | cons p ps ih =>
      intro a
      show accFoldAH (accStepH a p.2) ps = _
      rw [ih]
      show _ = match some (accFoldAH (accNewH p.2) ps) with
               | none => a | some b => accCombH a b
      rw [ih (accNewH p.2)]
      cases hc : accOfH ps with
      | none => simpa using accStepH_eq_comb a p.2
      | some b =>
          show accCombH (accStepH a p.2) b = accCombH a (accCombH (accNewH p.2) b)
          rw [accStepH_eq_comb, accCombH_assoc]

theorem accOfH_append (xs ys : List Point) :
    accOfH (xs ++ ys) = match accOfH xs, accOfH ys with
      | none, o => o
      | some a, none => some a
      | some a, some b => some (accCombH a b) := by
  cases xs with
  | nil =>
      rw [List.nil_append]
      cases hys : accOfH ys <;> rfl
  | cons x xs =>
      show some (accFoldAH (accNewH x.2) (xs ++ ys)) = _
      rw [show accFoldAH (accNewH x.2) (xs ++ ys)
            = accFoldAH (accFoldAH (accNewH x.2) xs) ys from List.foldl_append ..]
      rw [accFoldAH_eq ys]
      show _ = match some (accFoldAH (accNewH x.2) xs), accOfH ys with
               | none, o => o
               | some a, none => some a
               | some a, some b => some (accCombH a b)
      cases accOfH ys <;> rfl

theorem accOfH_none_iff (ps : List Point) : accOfH ps = none ↔ ps = [] := by
  cases ps <;> simp [accOfH]

theorem accFoldAH_sum (ps : List Point) : ∀ a : AccH,
    (accFoldAH a ps).sum = a.sum + sumVals ps := by
  induction ps with
  | nil => intro a; simp [accFoldAH, sumVals]
  | cons p ps ih =>
      intro a
      show (accFoldAH (accStepH a p.2) ps).sum = _
      rw [ih]
      simp [accStepH, sumVals, add_assoc]

theorem accFoldAH_cnt (ps : List Point) : ∀ a : AccH,
    (accFoldAH a ps).cnt = a.cnt + ps.length := by
  induction ps with
  | nil => intro a; simp [accFoldAH]
  | cons p ps ih =>
      intro a
      show (accFoldAH (accStepH a p.2) ps).cnt = _
      rw [ih]
      simp [accStepH]
      omega

theorem accFoldAH_min (ps : List Point) : ∀ a : AccH,
    (accFoldAH a ps).min = (ps.map Prod.snd).foldl min a.min := by
  induction ps with
  | nil => intro a; rfl
  | cons p ps ih =>
      intro a
      show (accFoldAH (accStepH a p.2) ps).min = _
      rw [ih]
      simp [accStepH, if_lt_eq_min]

theorem accFoldAH_max (ps : List Point) : ∀ a : AccH,
    (accFoldAH a ps).max = (ps.map Prod.snd).foldl max a.max := by
  induction ps with
  | nil => intro a; rfl
  | cons p ps ih =>
      intro a
      show (accFoldAH (accStepH a p.2) ps).max = _
      rw [ih]
      simp [accStepH, if_lt_eq_max]

theorem accOfH_sum (ps : List Point) (a : AccH) (h : accOfH ps = some a) :
    a.sum = sumVals ps := by
  cases ps with
  | nil => simp [accOfH] at h
  | cons p ps =>
      have ha : accFoldAH (accNewH p.2) ps = a := Option.some.inj h
      rw [← ha, accFoldAH_sum]
      simp [accNewH, sumVals]

theorem accOfH_cnt (ps : List Point) (a : AccH) (h : accOfH ps = some a) :
    a.cnt = ps.length := by
  cases ps with
  | nil => simp [accOfH] at h
  | cons p ps =>
      have ha : accFoldAH (accNewH p.2) ps = a := Option.some.inj h
      rw [← ha, accFoldAH_cnt]
      simp [accNewH]
      omega

theorem accOfH_min (ps : List Point) (a : AccH) (h : accOfH ps = some a) :
    some a.min = (ps.map Prod.snd).min? := by
  cases ps with
  | nil => simp [accOfH] at h
  | cons p ps =>
      have ha : accFoldAH (accNewH p.2) ps = a := Option.some.inj h
      rw [← ha, accFoldAH_min]
      rfl

theorem accOfH_max (ps : List Point) (a : AccH) (h : accOfH ps = some a) :
    some a.max = (ps.map Prod.snd).max? := by
  cases ps with
  | nil => simp [accOfH] at h
  | cons p ps =>
      have ha : accFoldAH (accNewH p.2) ps = a := Option.some.inj h
      rw [← ha, accFoldAH_max]
      rfl

/-! ## Lemmas: the bucket dictionary (loader-rudn) -/

theorem lookupB_updateBuckets (bs : List (ℤ × Acc)) (hk t : ℤ) (v : ℚ) (h : ℤ) :
    lookupB (updateBuckets bs hk t v) h =
      if hk = h then
        some (match lookupB bs h with
          | none => accNew t v
          | some a => accStep a t v)
      else lookupB bs h := by
  induction bs with
  | nil =>
      by_cases e : hk = h
      · simp [updateBuckets, lookupB, e]
      · simp [updateBuckets, lookupB, e]
  | cons hd rest ih =>
      obtain ⟨h₃, a⟩ := hd
      by_cases e1 : h₃ = hk
      · subst e1
        simp only [updateBuckets, if_pos rfl]
        by_cases e2 : h₃ = h
        · subst e2
          simp [lookupB]
        · simp [lookupB, e2]
      · simp only [updateBuckets, if_neg e1]
        by_cases e2 : h₃ = h
        · subst e2
          have e3 : ¬ hk = h₃ := fun hc => e1 hc.symm
          simp [lookupB, e3]
        · simp only [lookupB, if_neg e2]
          exact ih

theorem lookupB_foldBuckets (ps : List Point) : ∀ bs : List (ℤ × Acc), ∀ h : ℤ,
    lookupB (ps.foldl (fun bs p => updateBuckets bs (floorHour p.1) p.1 p.2) bs) h =
      (ps.filter (fun p => floorHour p.1 = h)).foldl
        (fun o p => some (match o with
          | none => accNew p.1 p.2
          | some a => accStep a p.1 p.2))
        (lookupB bs h) := by
  induction ps with
  | nil => intro bs h; rfl
  | cons p ps ih =>
      intro bs h
      rw [List.foldl_cons, ih]
      by_cases e : floorHour p.1 = h
      · rw [List.filter_cons_of_pos (by simpa using e), List.foldl_cons,
            lookupB_updateBuckets, if_pos e]
      · rw [List.filter_cons_of_neg (by simpa using e), lookupB_updateBuckets, if_neg e]

theorem foldl_optAcc_some (ps : List Point) : ∀ a : Acc,
    ps.foldl (fun o p => some (match o with
        | none => accNew p.1 p.2
        | some a => accStep a p.1 p.2)) (some a)
      = some (accFoldA a ps) := by
  induction ps with
  | nil => intro a; rfl
  | cons p ps ih =>
      intro a
      rw [List.foldl_cons]
      exact ih (accStep a p.1 p.2)

theorem foldl_optAcc_none (ps : List Point) :
    ps.foldl (fun o p => some (match o with
        | none => accNew p.1 p.2
        | some a => accStep a p.1 p.2)) none
      = accOf ps := by
  cases ps with
  | nil => rfl
  | cons p ps =>
      rw [List.foldl_cons]
      exact foldl_optAcc_some ps (accNew p.1 p.2)

/-- The bucket an hour receives is exactly the fold over the points of that
hour, in arrival order. -/
theorem lookupB_mkBuckets (ps : List Point) (h : ℤ) :
    lookupB (mkBuckets ps) h = accOf (ps.filter (fun p => floorHour p.1 = h)) := by
  rw [mkBuckets, lookupB_foldBuckets]
  exact foldl_optAcc_none _

theorem keys_updateBuckets (bs : List (ℤ × Acc)) (hk t : ℤ) (v : ℚ) :
    (updateBuckets bs hk t v).map Prod.fst =
      if hk ∈ bs.map Prod.fst then bs.map Prod.fst else bs.map Prod.fst ++ [hk] := by
  induction bs with
  | nil => simp [updateBuckets]
  | cons hd rest ih =>
      obtain ⟨h₃, a⟩ := hd
      by_cases e1 : h₃ = hk
      · subst e1
        simp [updateBuckets]
      · have e2 : ¬ hk = h₃ := fun hc => e1 hc.symm
        simp only [updateBuckets, if_neg e1, List.map_cons, List.mem_cons, e2,
          false_or]
        by_cases e3 : hk ∈ rest.map Prod.fst
        · simp [e3, ih]
        · simp [e3, ih]

theorem nodup_keys_foldBuckets (ps : List Point) : ∀ bs : List (ℤ × Acc),
    (bs.map Prod.fst).Nodup →
    (((ps.foldl (fun bs p => updateBuckets bs (floorHour p.1) p.1 p.2) bs)).map
        Prod.fst).Nodup := by
  induction ps with
  | nil => intro bs h; exact h
  | cons p ps ih =>
      intro bs hb
      rw [List.foldl_cons]
      refine ih _ ?_
      rw [keys_updateBuckets]
      by_cases e : floorHour p.1 ∈ bs.map Prod.fst
      · rw [if_pos e]; exact hb
      · rw [if_neg e]
        simp [List.nodup_append, hb, e]

theorem nodup_keys_mkBuckets (ps : List Point) :
    ((mkBuckets ps).map Prod.fst).Nodup := by
  exact nodup_keys_foldBuckets ps [] (by simp)

/-! ## Lemmas: the bucket dictionary (HSE loader) -/

theorem lookupBH_updateBucketsH (bs : List (ℤ × AccH)) (hk : ℤ) (v : ℚ) (h : ℤ) :
    lookupBH (updateBucketsH bs hk v) h =
      if hk = h then
        some (match lookupBH bs h with
          | none => accNewH v
          | some a => accStepH a v)
      else lookupBH bs h := by
  induction bs with
  | nil =>
      by_cases e : hk = h
      · simp [updateBucketsH, lookupBH, e]
      · simp [updateBucketsH, lookupBH, e]
  | cons hd rest ih =>
      obtain ⟨h₃, a⟩ := hd
      by_cases e1 : h₃ = hk
      · subst e1
        simp only [updateBucketsH, if_pos rfl]
        by_cases e2 : h₃ = h
        · subst e2
          simp [lookupBH]
        · simp [lookupBH, e2]
      · simp only [updateBucketsH, if_neg e1]
        by_cases e2 : h₃ = h
        · subst e2
          have e3 : ¬ hk = h₃ := fun hc => e1 hc.symm
          simp [lookupBH, e3]
        · simp only [lookupBH, if_neg e2]
          exact ih

theorem lookupBH_foldBucketsH (ps : List Point) : ∀ bs : List (ℤ × AccH), ∀ h : ℤ,
    lookupBH (ps.foldl (fun bs p => updateBucketsH bs (floorHour p.1) p.2) bs) h =
      (ps.filter (fun p => floorHour p.1 = h)).foldl
        (fun o p => some (match o with
          | none => accNewH p.2
          | some a => accStepH a p.2))
        (lookupBH bs h) := by
  induction ps with
  | nil => intro bs h; rfl
  | cons p ps ih =>
      intro bs h
      rw [List.foldl_cons, ih]
      by_cases e : floorHour p.1 = h
      · rw [List.filter_cons_of_pos (by simpa using e), List.foldl_cons,
            lookupBH_updateBucketsH, if_pos e]
      · rw [List.filter_cons_of_neg (by simpa using e), lookupBH_updateBucketsH, if_neg e]

theorem foldl_optAccH_some (ps : List Point) : ∀ a : AccH,
    ps.foldl (fun o p => some (match o with
        | none => accNewH p.2
        | some a => accStepH a p.2)) (some a)
      = some (accFoldAH a ps) := by
  induction ps with
  | nil => intro a; rfl
  | cons p ps ih =>
      intro a
      rw [List.foldl_cons]
      exact ih (accStepH a p.2)

theorem foldl_optAccH_none (ps : List Point) :
    ps.foldl (fun o p => some (match o with
        | none => accNewH p.2
        | some a => accStepH a p.2)) none
      = accOfH ps := by
  cases ps with
  | nil => rfl
  | cons p ps =>
      rw [List.foldl_cons]
      exact foldl_optAccH_some ps (accNewH p.2)

theorem lookupBH_mkBucketsH (ps : List Point) (h : ℤ) :
    lookupBH (mkBucketsH ps) h = accOfH (ps.filter (fun p => floorHour p.1 = h)) := by
  rw [mkBucketsH, lookupBH_foldBucketsH]
  exact foldl_optAccH_none _

theorem keys_updateBucketsH (bs : List (ℤ × AccH)) (hk : ℤ) (v : ℚ) :
    (updateBucketsH bs hk v).map Prod.fst =
      if hk ∈ bs.map Prod.fst then bs.map Prod.fst else bs.map Prod.fst ++ [hk] := by
  induction bs with
  | nil => simp [updateBucketsH]
  | cons hd rest ih =>
      obtain ⟨h₃, a⟩ := hd
      by_cases e1 : h₃ = hk
      · subst e1
        simp [updateBucketsH]
      · have e2 : ¬ hk = h₃ := fun hc => e1 hc.symm
        simp only [updateBucketsH, if_neg e1, List.map_cons, List.mem_cons, e2,
          false_or]
        by_cases e3 : hk ∈ rest.map Prod.fst
        · simp [e3, ih]
        · simp [e3, ih]

theorem nodup_keys_foldBucketsH (ps : List Point) : ∀ bs : List (ℤ × AccH),
    (bs.map Prod.fst).Nodup →
    (((ps.foldl (fun bs p => updateBucketsH bs (floorHour p.1) p.2) bs)).map
        Prod.fst).Nodup := by
  induction ps with
  | nil => intro bs h; exact h
  | cons p ps ih =>
      intro bs hb
      rw [List.foldl_cons]
      refine ih _ ?_
      rw [keys_updateBucketsH]
      by_cases e : floorHour p.1 ∈ bs.map Prod.fst
      · rw [if_pos e]; exact hb
      · rw [if_neg e]
        simp [List.nodup_append, hb, e]

theorem nodup_keys_mkBucketsH (ps : List Point) :
    ((mkBucketsH ps).map Prod.fst).Nodup := by
  exact nodup_keys_foldBucketsH ps [] (by simp)

/-! ## Lemmas: characterisation of the fact-table state after one call -/

theorem stepR_fst_apply (resolve : ℤ → Option ℤ) (tid : ℤ) (st : TableR × Ctr)
    (ha : ℤ × Acc) (k : ℤ × ℤ) :
    ((stepR resolve tid st ha).1) k =
      match resolve ha.1 with
      | none => st.1 k
      | some loc =>
          if k = (loc, ha.1) then some (mergeRowR (st.1 (loc, ha.1)) ha.2) else st.1 k := by
  cases hr : resolve ha.1 <;> simp [stepR, hr, upsertR]

theorem stepR_snd (resolve : ℤ → Option ℤ) (tid : ℤ) (st : TableR × Ctr)
    (ha : ℤ × Acc) :
    (stepR resolve tid st ha).2 =
      match resolve ha.1 with
      | none => bump st.2 tid
      | some _ => st.2 := by
  cases hr : resolve ha.1 <;> simp [stepR, hr]

theorem foldl_stepR_not_mem (resolve : ℤ → Option ℤ) (tid : ℤ)
    (bs : List (ℤ × Acc)) : ∀ st : TableR × Ctr, ∀ k : ℤ × ℤ,
    k.2 ∉ bs.map Prod.fst →
    ((bs.foldl (stepR resolve tid) st).1) k = st.1 k := by
  induction bs with
  | nil => intro st k _; rfl
  | cons hd rest ih =>
      intro st k hk
      obtain ⟨h, a⟩ := hd
      have hk1 : k.2 ≠ h := by
        intro e; exact hk (by simp [e])
      have hk2 : k.2 ∉ rest.map Prod.fst := by
        intro e; exact hk (by simp [e])
      rw [List.foldl_cons, ih _ k hk2, stepR_fst_apply]
      cases resolve h with
      | none => rfl
      | some loc =>
          have : k ≠ (loc, h) := by
            intro e; exact hk1 (by rw [e])
          simp [this]

theorem foldl_stepR_char (resolve : ℤ → Option ℤ) (tid : ℤ)
    (bs : List (ℤ × Acc)) : ∀ st : TableR × Ctr, ∀ k : ℤ × ℤ,
    (bs.map Prod.fst).Nodup →
    ((bs.foldl (stepR resolve tid) st).1) k =
      match lookupB bs k.2 with
      | none => st.1 k
      | some a =>
          match resolve k.2 with
          | none => st.1 k
          | some loc => if k.1 = loc then some (mergeRowR (st.1 k) a) else st.1 k := by
  induction bs with
  | nil => intro st k _; rfl
  | cons hd rest ih =>
      intro st k hnd
      obtain ⟨h, a⟩ := hd
      have hnotin : h ∉ rest.map Prod.fst := by
        have := hnd
        rw [List.map_cons, List.nodup_cons] at this
        exact this.1
      have hndrest : (rest.map Prod.fst).Nodup := by
        have := hnd
        rw [List.map_cons, List.nodup_cons] at this
        exact this.2
      by_cases e : h = k.2
      · subst e
        rw [List.foldl_cons, foldl_stepR_not_mem resolve tid rest _ k hnotin,
            stepR_fst_apply]
        show _ = match (if k.2 = k.2 then some a else lookupB rest k.2) with
          | none => st.1 k
          | some a =>
              match resolve k.2 with
              | none => st.1 k
              | some loc => if k.1 = loc then some (mergeRowR (st.1 k) a) else st.1 k
        rw [if_pos rfl]
        cases resolve k.2 with
        | none => rfl
        | some loc =>
            show (if k = (loc, k.2) then some (mergeRowR (st.1 (loc, k.2)) a) else st.1 k)
              = if k.1 = loc then some (mergeRowR (st.1 k) a) else st.1 k
            by_cases e2 : k.1 = loc
            · have ek : k = (loc, k.2) := by
                obtain ⟨k1, k2⟩ := k
                simp only at e2
                simp [e2]
              rw [if_pos ek, if_pos e2, ← ek]
            · have ek : k ≠ (loc, k.2) := by
                intro hc
                exact e2 (by rw [hc])
              rw [if_neg ek, if_neg e2]
      · have e2 : ¬ h = k.2 := e
        rw [List.foldl_cons, ih _ k hndrest]
        show _ = match (if h = k.2 then some a else lookupB rest k.2) with
          | none => st.1 k
          | some a =>
              match resolve k.2 with
              | none => st.1 k
              | some loc => if k.1 = loc then some (mergeRowR (st.1 k) a) else st.1 k
        rw [if_neg e2]
        have hst : (stepR resolve tid st (h, a)).1 k = st.1 k := by
          rw [stepR_fst_apply]
          cases resolve h with
          | none => rfl
          | some loc =>
              have : k ≠ (loc, h) := by
                intro hc; exact e2 (by rw [hc])
              simp [this]
        cases lookupB rest k.2 with
        | none => exact hst
        | some b =>
            cases resolve k.2 with
            | none => exact hst
            | some loc =>
                by_cases e3 : k.1 = loc
                · simp only [if_pos e3, hst]
                · simp only [if_neg e3, hst]

/-- Where the `loader-rudn` fact table ends up after one aggregation call:
at key `(loc, h)`, nothing changes unless the call contains points of hour
`h` and `h` resolves to `loc`; in that case the hour's accumulated bucket is
merge-upserted into the previous row. -/
theorem aggregateRudn_table (resolve : ℤ → Option ℤ) (tid : ℤ) (st : TableR × Ctr)
    (ps : List Point) (k : ℤ × ℤ) :
    ((aggregateRudn resolve tid st ps).1.1) k =
      match accOf (ps.filter (fun p => floorHour p.1 = k.2)) with
      | none => st.1 k
      | some a =>
          match resolve k.2 with
          | none => st.1 k
          | some loc => if k.1 = loc then some (mergeRowR (st.1 k) a) else st.1 k := by
  show ((mkBuckets ps).foldl (stepR resolve tid) st).1 k = _
  rw [foldl_stepR_char resolve tid _ st k (nodup_keys_mkBuckets ps), lookupB_mkBuckets]

theorem stepH_fst_apply (resolve : ℤ → Option ℤ) (st : TableH × ℕ)
    (ha : ℤ × AccH) (k : ℤ) :
    ((stepH resolve st ha).1) k =
      match resolve ha.1 with
      | none => st.1 k
      | some loc =>
          if k = ha.1 then some (mergeRowH loc (st.1 ha.1) ha.2) else st.1 k := by
  cases hr : resolve ha.1 <;> simp [stepH, hr, upsertH]

theorem foldl_stepH_not_mem (resolve : ℤ → Option ℤ)
    (bs : List (ℤ × AccH)) : ∀ st : TableH × ℕ, ∀ k : ℤ,
    k ∉ bs.map Prod.fst →
    ((bs.foldl (stepH resolve) st).1) k = st.1 k := by
  induction bs with
  | nil => intro st k _; rfl
  | cons hd rest ih =>
      intro st k hk
      obtain ⟨h, a⟩ := hd
      have hk1 : k ≠ h := by
        intro e; exact hk (by simp [e])
      have hk2 : k ∉ rest.map Prod.fst := by
        intro e; exact hk (by simp [e])
      rw [List.foldl_cons, ih _ k hk2, stepH_fst_apply]
      cases resolve h with
      | none => rfl
      | some loc => simp [hk1]

theorem foldl_stepH_char (resolve : ℤ → Option ℤ)
    (bs : List (ℤ × AccH)) : ∀ st : TableH × ℕ, ∀ k : ℤ,
    (bs.map Prod.fst).Nodup →
    ((bs.foldl (stepH resolve) st).1) k =
      match lookupBH bs k with
      | none => st.1 k
      | some a =>
          match resolve k with
          | none => st.1 k
          | some loc => some (mergeRowH loc (st.1 k) a) := by
  induction bs with
  | nil => intro st k _; rfl
  | cons hd rest ih =>
      intro st k hnd
      obtain ⟨h, a⟩ := hd
      have hnotin : h ∉ rest.map Prod.fst := by
        have := hnd
        rw [List.map_cons, List.nodup_cons] at this
        exact this.1
      have hndrest : (rest.map Prod.fst).Nodup := by
        have := hnd
        rw [List.map_cons, List.nodup_cons] at this
        exact this.2
      by_cases e : h = k
      · subst e
        rw [List.foldl_cons, foldl_stepH_not_mem resolve rest _ h hnotin,
            stepH_fst_apply]
        show _ = match (if h = h then some a else lookupBH rest h) with
          | none => st.1 h
          | some a =>
              match resolve h with
              | none => st.1 h
              | some loc => some (mergeRowH loc (st.1 h) a)
        rw [if_pos rfl]
        cases resolve h with
        | none => rfl
        | some loc => simp
      · have e2 : ¬ h = k := e
        rw [List.foldl_cons, ih _ k hndrest]
        show _ = match (if h = k then some a else lookupBH rest k) with
          | none => st.1 k
          | some a =>
              match resolve k with
              | none => st.1 k
              | some loc => some (mergeRowH loc (st.1 k) a)
        rw [if_neg e2]
        have hst : (stepH resolve st (h, a)).1 k = st.1 k := by
          rw [stepH_fst_apply]
          cases resolve h with
          | none => rfl
          | some loc =>
              have : k ≠ h := fun hc => e2 hc.symm
              simp [this]
        cases lookupBH rest k with
        | none => exact hst
        | some b =>
            cases resolve k with
            | none => exact hst
            | some loc => simp only [hst]

/-- Where the HSE fact table ends up after one aggregation call: at hour
`h`, nothing changes unless the call has points in `h` and `h` resolves;
in that case the average and location are overwritten by the bucket's,
min/max merge, and the counts add. -/
theorem aggregateHse_table (resolve : ℤ → Option ℤ) (st : TableH × ℕ)
    (ps : List Point) (k : ℤ) :
    ((aggregateHse resolve st ps).1.1) k =
      match accOfH (ps.filter (fun p => floorHour p.1 = k)) with
      | none => st.1 k
      | some a =>
          match resolve k with
          | none => st.1 k
          | some loc => some (mergeRowH loc (st.1 k) a) := by
  show ((mkBucketsH ps).foldl (stepH resolve) st).1 k = _
  rw [foldl_stepH_char resolve _ st k (nodup_keys_mkBucketsH ps), lookupBH_mkBucketsH]

/-! ## Lemmas: calls whose points all lie in one hour -/

theorem foldBuckets_single (ps : List Point) (h : ℤ) : ∀ a₀ : Acc,
    (∀ p ∈ ps, floorHour p.1 = h) →
    ps.foldl (fun bs p => updateBuckets bs (floorHour p.1) p.1 p.2) [(h, a₀)]
      = [(h, accFoldA a₀ ps)] := by
  induction ps with
  | nil => intro a₀ _; rfl
  | cons p ps ih =>
      intro a₀ hall
      have hp : floorHour p.1 = h := hall p (List.mem_cons_self p ps)
      rw [List.foldl_cons]
      have : updateBuckets [(h, a₀)] (floorHour p.1) p.1 p.2
          = [(h, accStep a₀ p.1 p.2)] := by
        simp [updateBuckets, hp]
      rw [this]
      exact ih (accStep a₀ p.1 p.2) (fun q hq => hall q (List.mem_cons_of_mem p hq))

theorem mkBuckets_single (ps : List Point) (h : ℤ) (hne : ps ≠ [])
    (hall : ∀ p ∈ ps, floorHour p.1 = h) :
    ∃ a : Acc, mkBuckets ps = [(h, a)] := by
  cases ps with
  | nil => exact absurd rfl hne
  | cons p ps =>
      have hp : floorHour p.1 = h := hall p (List.mem_cons_self p ps)
      refine ⟨accFoldA (accNew p.1 p.2) ps, ?_⟩
      show (p :: ps).foldl (fun bs p => updateBuckets bs (floorHour p.1) p.1 p.2) [] = _
      rw [List.foldl_cons]
      have : updateBuckets [] (floorHour p.1) p.1 p.2 = [(h, accNew p.1 p.2)] := by
        simp [updateBuckets, hp]
      rw [this]
      exact foldBuckets_single ps h _ (fun q hq => hall q (List.mem_cons_of_mem p hq))

theorem foldBucketsH_single (ps : List Point) (h : ℤ) : ∀ a₀ : AccH,
    (∀ p ∈ ps, floorHour p.1 = h) →
    ps.foldl (fun bs p => updateBucketsH bs (floorHour p.1) p.2) [(h, a₀)]
      = [(h, accFoldAH a₀ ps)] := by
  induction ps with
  | nil => intro a₀ _; rfl
  | cons p ps ih =>
      intro a₀ hall
      have hp : floorHour p.1 = h := hall p (List.mem_cons_self p ps)
      rw [List.foldl_cons]
      have : updateBucketsH [(h, a₀)] (floorHour p.1) p.2
          = [(h, accStepH a₀ p.2)] := by
        simp [updateBucketsH, hp]
      rw [this]
      exact ih (accStepH a₀ p.2) (fun q hq => hall q (List.mem_cons_of_mem p hq))

theorem mkBucketsH_single (ps : List Point) (h : ℤ) (hne : ps ≠ [])
    (hall : ∀ p ∈ ps, floorHour p.1 = h) :
    ∃ a : AccH, mkBucketsH ps = [(h, a)] := by
  cases ps with
  | nil => exact absurd rfl hne
  | cons p ps =>
      have hp : floorHour p.1 = h := hall p (List.mem_cons_self p ps)
      refine ⟨accFoldAH (accNewH p.2) ps, ?_⟩
      show (p :: ps).foldl (fun bs p => updateBucketsH bs (floorHour p.1) p.2) [] = _
      rw [List.foldl_cons]
      have : updateBucketsH [] (floorHour p.1) p.2 = [(h, accNewH p.2)] := by
        simp [updateBucketsH, hp]
      rw [this]
      exact foldBucketsH_single ps h _ (fun q hq => hall q (List.mem_cons_of_mem p hq))

/-! ## Lemmas: two-step merge versus combined merge -/

/-- Merging bucket `a`, then bucket `b`, into a (possibly absent) row agrees
on the `(min, max, cnt)` components with merging the combined bucket once.
(The average does not in general agree: each call rounds its own bucket
mean.) -/
theorem mergeRowR_merge_merge (o : Option RowR) (a b : Acc) :
    (mergeRowR (some (mergeRowR o a)) b).min = (mergeRowR o (accComb a b)).min
    ∧ (mergeRowR (some (mergeRowR o a)) b).max = (mergeRowR o (accComb a b)).max
    ∧ (mergeRowR (some (mergeRowR o a)) b).cnt = (mergeRowR o (accComb a b)).cnt := by
  cases o with
  | none =>
      refine ⟨?_, ?_, ?_⟩ <;> simp [mergeRowR, accComb, min_comm, max_comm]
  | some r =>
      refine ⟨?_, ?_, ?_⟩ <;>
        simp [mergeRowR, accComb, min_assoc, max_assoc, min_comm, max_comm,
          min_left_comm, max_left_comm]
      omega

theorem mergeRowH_merge_merge (loc₁ loc₂ : ℤ) (o : Option RowH) (a b : AccH) :
    (mergeRowH loc₂ (some (mergeRowH loc₁ o a)) b).min
        = (mergeRowH loc₂ o (accCombH a b)).min
    ∧ (mergeRowH loc₂ (some (mergeRowH loc₁ o a)) b).max
        = (mergeRowH loc₂ o (accCombH a b)).max
    ∧ (mergeRowH loc₂ (some (mergeRowH loc₁ o a)) b).cnt
        = (mergeRowH loc₂ o (accCombH a b)).cnt := by
  cases o with
  | none =>
      refine ⟨?_, ?_, ?_⟩ <;> simp [mergeRowH, accCombH, min_comm, max_comm]
  | some r =>
      refine ⟨?_, ?_, ?_⟩ <;>
        simp [mergeRowH, accCombH, min_assoc, max_assoc, min_comm, max_comm,
          min_left_comm, max_left_comm]
      omega

/-- Specialisation of the table characterisation: merging a single-hour call
into a row that is already present. -/
theorem aggregateRudn_merge (resolve : ℤ → Option ℤ) (tid : ℤ) (st : TableR × Ctr)
    (ps : List Point) (h loc : ℤ) (a : Acc) (r : RowR)
    (hall : ∀ p ∈ ps, floorHour p.1 = h) (hacc : accOf ps = some a)
    (hres : resolve h = some loc) (hrow : st.1 (loc, h) = some r) :
    ((aggregateRudn resolve tid st ps).1.1) (loc, h) = some (mergeRowR (some r) a) := by
  have hchar := aggregateRudn_table resolve tid st ps (loc, h)
  have hfil : ps.filter (fun p => floorHour p.1 = ((loc, h) : ℤ × ℤ).2) = ps :=
    List.filter_eq_self.mpr (fun p hp => by simp [hall p hp])
  rw [hfil, hacc] at hchar
  rw [hchar]
  show (match resolve ((loc, h) : ℤ × ℤ).2 with
        | none => st.1 (loc, h)
        | some l =>
            if ((loc, h) : ℤ × ℤ).1 = l then some (mergeRowR (st.1 (loc, h)) a)
            else st.1 (loc, h)) = _
  rw [show ((loc, h) : ℤ × ℤ).2 = h from rfl, hres]
  show (if loc = loc then some (mergeRowR (st.1 (loc, h)) a) else st.1 (loc, h)) = _
  rw [if_pos rfl, hrow]

theorem aggregateHse_merge (resolve : ℤ → Option ℤ) (st : TableH × ℕ)
    (ps : List Point) (h loc : ℤ) (a : AccH) (r : RowH)
    (hall : ∀ p ∈ ps, floorHour p.1 = h) (hacc : accOfH ps = some a)
    (hres : resolve h = some loc) (hrow : st.1 h = some r) :
    ((aggregateHse resolve st ps).1.1) h = some (mergeRowH loc (some r) a) := by
  have hchar := aggregateHse_table resolve st ps h
  have hfil : ps.filter (fun p => floorHour p.1 = h) = ps :=
    List.filter_eq_self.mpr (fun p hp => by simp [hall p hp])
  rw [hfil, hacc] at hchar
  rw [hchar]
  show (match resolve h with
        | none => st.1 h
        | some l => some (mergeRowH l (st.1 h) a)) = _
  rw [hres, hrow]

/-! ## Claim C1 -/

/-- C1, corrected.  In `loader-rudn`, merging a non-empty single-hour bucket
into an existing fact row yields
`avg = (old.avg * old.cnt + round₃(bucket.mean) * bucket.cnt) / (old.cnt + bucket.cnt)`
(the bucket mean is rounded to 3 decimal places before the weighted merge),
`min = min(old.min, bucket.min)`, `max = max(old.max, bucket.max)`,
`cnt = old.cnt + bucket.cnt`; the claim's numeric examples hold exactly in
this variant.  The HSE variant instead overwrites the stored average (and
location) with the new bucket's rounded mean while min/max/cnt merge. -/
theorem claim_C1_amended :
    (∀ (resolve : ℤ → Option ℤ) (tid : ℤ) (st : TableR × Ctr) (ps : List Point)
        (h loc : ℤ) (r : RowR) (m M : ℚ),
        (∀ p ∈ ps, floorHour p.1 = h) → ps ≠ [] → resolve h = some loc →
        st.1 (loc, h) = some r →
        (ps.map Prod.snd).min? = some m → (ps.map Prod.snd).max? = some M →
        ((aggregateRudn resolve tid st ps).1.1) (loc, h) =
          some ⟨(r.avg * r.cnt + roundTo 3 (sumVals ps / ps.length) * ps.length)
                  / ((r.cnt : ℚ) + ps.length),
                min m r.min, max M r.max, r.cnt + ps.length⟩)
    ∧ (∀ (resolve : ℤ → Option ℤ) (st : TableH × ℕ) (ps : List Point)
        (h loc : ℤ) (r : RowH) (m M : ℚ),
        (∀ p ∈ ps, floorHour p.1 = h) → ps ≠ [] → resolve h = some loc →
        st.1 h = some r →
        (ps.map Prod.snd).min? = some m → (ps.map Prod.snd).max? = some M →
        ((aggregateHse resolve st ps).1.1) h =
          some ⟨loc, roundTo 2 (sumVals ps / ps.length),
                min m r.min, max M r.max, r.cnt + ps.length⟩)
    ∧ (aggregateRudn resolveTo1 7 emptyStR [(0, 10), (1, 20), (2, 30)]).1.1 (1, 0)
        = some ⟨20, 10, 30, 3⟩
    ∧ (aggregateRudn resolveTo1 7
        (aggregateRudn resolveTo1 7 emptyStR [(0, 10), (1, 20), (2, 30)]).1
        [(3, 0)]).1.1 (1, 0) = some ⟨15, 0, 30, 4⟩ := by
  refine ⟨?_, ?_, by norm_num [aggregateRudn, aggregateHse, mkBuckets, mkBucketsH, updateBuckets, updateBucketsH, accNew, accNewH, accStep, accStepH, stepR, stepH, upsertR, upsertH, mergeRowR, mergeRowH, resolveTo1, resolveNone, emptyStR, emptyStH, floorHour, roundTo, pyRound, bump, mmcR, mmcH, sumVals], by norm_num [aggregateRudn, aggregateHse, mkBuckets, mkBucketsH, updateBuckets, updateBucketsH, accNew, accNewH, accStep, accStepH, stepR, stepH, upsertR, upsertH, mergeRowR, mergeRowH, resolveTo1, resolveNone, emptyStR, emptyStH, floorHour, roundTo, pyRound, bump, mmcR, mmcH, sumVals]⟩
  · intro resolve tid st ps h loc r m M hall hne hres hrow hmin hmax
    cases hacc : accOf ps with
    | none => exact absurd ((accOf_none_iff ps).mp hacc) hne
    | some a =>
        rw [aggregateRudn_merge resolve tid st ps h loc a r hall hacc hres hrow]
        have hm : a.min = m := Option.some.inj ((accOf_min ps a hacc).trans hmin)
        have hM : a.max = M := Option.some.inj ((accOf_max ps a hacc).trans hmax)
        show some (⟨(r.avg * r.cnt + roundTo 3 (a.sum / a.cnt) * a.cnt)
            / ((r.cnt : ℚ) + a.cnt),
          min a.min r.min, max a.max r.max, r.cnt + a.cnt⟩ : RowR) = _
        rw [accOf_sum ps a hacc, accOf_cnt ps a hacc, hm, hM]
  · intro resolve st ps h loc r m M hall hne hres hrow hmin hmax
    cases hacc : accOfH ps with
    | none => exact absurd ((accOfH_none_iff ps).mp hacc) hne
    | some a =>
        rw [aggregateHse_merge resolve st ps h loc a r hall hacc hres hrow]
        have hm : a.min = m := Option.some.inj ((accOfH_min ps a hacc).trans hmin)
        have hM : a.max = M := Option.some.inj ((accOfH_max ps a hacc).trans hmax)
        show some (⟨loc, roundTo 2 (a.sum / a.cnt),
          min a.min r.min, max a.max r.max, r.cnt + a.cnt⟩ : RowH) = _
        rw [accOfH_sum ps a hacc, accOfH_cnt ps a hacc, hm, hM]

/-- C1, counterexample to the claim as stated.  (i) On the HSE variant the
claim's own example fails: after `[10, 20, 30]`, merging `[0.0]` leaves
`avg = 0.0`, not the weighted mean `15.0`, because the upsert overwrites
`avg_val` with `EXCLUDED.avg_val`.  (ii) On `loader-rudn` the merged
average uses the bucket mean rounded to 3 decimals, not the exact bucket
mean: merging `[0, 0, 1]` into a row with `avg = 1, cnt = 1` gives
`1999/4000`, while the claim's formula gives `1/2`. -/
theorem claim_C1_counterexample :
    ((aggregateHse resolveTo1 (aggregateHse resolveTo1 emptyStH
        [(0, 10), (1, 20), (2, 30)]).1 [(3, 0)]).1.1 0).map RowH.avg = some 0
    ∧ (some (0 : ℚ) ≠ some 15)
    ∧ ((aggregateRudn resolveTo1 7 (aggregateRudn resolveTo1 7 emptyStR [(0, 1)]).1
        [(0, 0), (0, 0), (0, 1)]).1.1 (1, 0)).map RowR.avg = some (1999/4000)
    ∧ ((1999 : ℚ)/4000 ≠ ((1 : ℚ) * 1 + (1/3) * 3) / (1 + 3)) := by
  refine ⟨by norm_num [aggregateRudn, aggregateHse, mkBuckets, mkBucketsH, updateBuckets, updateBucketsH, accNew, accNewH, accStep, accStepH, stepR, stepH, upsertR, upsertH, mergeRowR, mergeRowH, resolveTo1, resolveNone, emptyStR, emptyStH, floorHour, roundTo, pyRound, bump, mmcR, mmcH, sumVals], by norm_num, by norm_num [aggregateRudn, aggregateHse, mkBuckets, mkBucketsH, updateBuckets, updateBucketsH, accNew, accNewH, accStep, accStepH, stepR, stepH, upsertR, upsertH, mergeRowR, mergeRowH, resolveTo1, resolveNone, emptyStR, emptyStH, floorHour, roundTo, pyRound, bump, mmcR, mmcH, sumVals], by norm_num⟩

def tblC1 : TableR × Ctr :=
  (fun k => if k = ((1 : ℤ), (0 : ℤ)) then some ⟨1, 1, 1, 1⟩ else none, fun _ => 0)

def tblC1H : TableH × ℕ :=
  (fun k => if k = (0 : ℤ) then some ⟨2, 1, 1, 1, 1⟩ else none, 0)

theorem claim_C1_witness :
    ((∀ p ∈ [((0 : ℤ), (2 : ℚ))], floorHour p.1 = 0)
      ∧ resolveTo1 0 = some 1
      ∧ tblC1.1 (1, 0) = some ⟨1, 1, 1, 1⟩
      ∧ ([((0 : ℤ), (2 : ℚ))].map Prod.snd).min? = some 2
      ∧ ([((0 : ℤ), (2 : ℚ))].map Prod.snd).max? = some 2)
    ∧ (aggregateRudn resolveTo1 7 tblC1 [(0, 2)]).1.1 (1, 0) = some ⟨3/2, 1, 2, 2⟩
    ∧ (aggregateHse resolveTo1 tblC1H [(0, 2)]).1.1 0 = some ⟨1, 2, 1, 2, 2⟩ := by
  refine ⟨⟨by decide, rfl, by decide, by decide, by decide⟩, ?_, ?_⟩
  · exact (claim_C1_amended.1 resolveTo1 7 tblC1 [(0, 2)] 0 1 ⟨1, 1, 1, 1⟩ 2 2
      (by decide) (by decide) rfl (by decide) (by decide) (by decide)).trans
      (by norm_num [roundTo, pyRound, sumVals])
  · exact (claim_C1_amended.2.1 resolveTo1 tblC1H [(0, 2)] 0 1 ⟨2, 1, 1, 1, 1⟩ 2 2
      (by decide) (by decide) rfl (by decide) (by decide) (by decide)).trans
      (by norm_num [roundTo, pyRound, sumVals])

/-! ## Claim C2 -/

/-- C2, corrected.  For any split of a point list into two sequential calls,
the final stored `min`, `max` and `cnt` of every bucket agree with the
single-call outcome, in both loader variants; and aggregating the same raw
point twice doubles `cnt` (the merge is not idempotent under duplication).
The stored `avg`, however, is not split-invariant (see the counterexample):
each call rounds its own bucket mean before merging. -/
theorem claim_C2_amended :
    (∀ (resolve : ℤ → Option ℤ) (tid : ℤ) (st : TableR × Ctr)
        (P₁ P₂ : List Point) (k : ℤ × ℤ),
        mmcR (((aggregateRudn resolve tid (aggregateRudn resolve tid st P₁).1 P₂).1.1) k)
          = mmcR (((aggregateRudn resolve tid st (P₁ ++ P₂)).1.1) k))
    ∧ (∀ (resolve : ℤ → Option ℤ) (st : TableH × ℕ) (P₁ P₂ : List Point) (k : ℤ),
        mmcH (((aggregateHse resolve (aggregateHse resolve st P₁).1 P₂).1.1) k)
          = mmcH (((aggregateHse resolve st (P₁ ++ P₂)).1.1) k))
    ∧ (aggregateRudn resolveTo1 7 (aggregateRudn resolveTo1 7 emptyStR [(0, 5)]).1
        [(0, 5)]).1.1 (1, 0) = some ⟨5, 5, 5, 2⟩
    ∧ (aggregateRudn resolveTo1 7 emptyStR [(0, 5)]).1.1 (1, 0) = some ⟨5, 5, 5, 1⟩ := by
  refine ⟨?_, ?_, by norm_num [aggregateRudn, aggregateHse, mkBuckets, mkBucketsH, updateBuckets, updateBucketsH, accNew, accNewH, accStep, accStepH, stepR, stepH, upsertR, upsertH, mergeRowR, mergeRowH, resolveTo1, resolveNone, emptyStR, emptyStH, floorHour, roundTo, pyRound, bump, mmcR, mmcH, sumVals], by norm_num [aggregateRudn, aggregateHse, mkBuckets, mkBucketsH, updateBuckets, updateBucketsH, accNew, accNewH, accStep, accStepH, stepR, stepH, upsertR, upsertH, mergeRowR, mergeRowH, resolveTo1, resolveNone, emptyStR, emptyStH, floorHour, roundTo, pyRound, bump, mmcR, mmcH, sumVals]⟩
  · intro resolve tid st P₁ P₂ k
    rw [aggregateRudn_table resolve tid (aggregateRudn resolve tid st P₁).1 P₂ k,
        aggregateRudn_table resolve tid st P₁ k,
        aggregateRudn_table resolve tid st (P₁ ++ P₂) k,
        List.filter_append, accOf_append]
    cases h1 : accOf (P₁.filter fun p => floorHour p.1 = k.2) with
    | none =>
        cases h2 : accOf (P₂.filter fun p => floorHour p.1 = k.2) with
        | none => rfl
        | some b => rfl
    | some a =>
        cases h2 : accOf (P₂.filter fun p => floorHour p.1 = k.2) with
        | none => rfl
        | some b =>
            cases hr : resolve k.2 with
            | none => rfl
            | some loc =>
                by_cases e : k.1 = loc
                · simp only [if_pos e, mmcR, Option.map_some']
                  obtain ⟨m1, m2, m3⟩ := mergeRowR_merge_merge (st.1 k) a b
                  rw [m1, m2, m3]
                · simp only [if_neg e]
  · intro resolve st P₁ P₂ k
    rw [aggregateHse_table resolve (aggregateHse resolve st P₁).1 P₂ k,
        aggregateHse_table resolve st P₁ k,
        aggregateHse_table resolve st (P₁ ++ P₂) k,
        List.filter_append, accOfH_append]
    cases h1 : accOfH (P₁.filter fun p => floorHour p.1 = k) with
    | none =>
        cases h2 : accOfH (P₂.filter fun p => floorHour p.1 = k) with
        | none => rfl
        | some b => rfl
    | some a =>
        cases h2 : accOfH (P₂.filter fun p => floorHour p.1 = k) with
        | none => rfl
        | some b =>
            cases hr : resolve k with
            | none => rfl
            | some loc =>
                simp only [mmcH, Option.map_some']
                obtain ⟨m1, m2, m3⟩ := mergeRowH_merge_merge loc loc (st.1 k) a b
                rw [m1, m2, m3]

/-- C2, counterexample to the claim as stated: `avg` is not split-invariant
in `loader-rudn`.  Aggregating `[(0,0), (0,0)]` then `[(0,1)]` stores
`avg = 1/3`, while one call `[(0,0), (0,0), (0,1)]` stores the rounded
`333/1000`. -/
theorem claim_C2_counterexample :
    ((aggregateRudn resolveTo1 7 (aggregateRudn resolveTo1 7 emptyStR
        [(0, 0), (0, 0)]).1 [(0, 1)]).1.1 (1, 0)).map RowR.avg = some (1/3)
    ∧ ((aggregateRudn resolveTo1 7 emptyStR [(0, 0), (0, 0), (0, 1)]).1.1 (1, 0)).map
        RowR.avg = some (333/1000)
    ∧ ((1 : ℚ)/3 ≠ 333/1000) := by
  refine ⟨by norm_num [aggregateRudn, aggregateHse, mkBuckets, mkBucketsH, updateBuckets, updateBucketsH, accNew, accNewH, accStep, accStepH, stepR, stepH, upsertR, upsertH, mergeRowR, mergeRowH, resolveTo1, resolveNone, emptyStR, emptyStH, floorHour, roundTo, pyRound, bump, mmcR, mmcH, sumVals], by norm_num [aggregateRudn, aggregateHse, mkBuckets, mkBucketsH, updateBuckets, updateBucketsH, accNew, accNewH, accStep, accStepH, stepR, stepH, upsertR, upsertH, mergeRowR, mergeRowH, resolveTo1, resolveNone, emptyStR, emptyStH, floorHour, roundTo, pyRound, bump, mmcR, mmcH, sumVals], by norm_num⟩

/-! ## Claim C4 -/

/-- C4, corrected.  `aggregate_and_upsert_hourly` returns the maximum raw
timestamp over all points of the call (equivalently, of all buckets) in
both variants, and returns `None` exactly when the call's point list is
empty — not when "no bucket produced output": the return value is computed
in the bucketing loop, before location resolution, and is unaffected by
skipped buckets. -/
theorem claim_C4_amended :
    (∀ (resolve : ℤ → Option ℤ) (tid : ℤ) (st : TableR × Ctr) (ps : List Point),
        (aggregateRudn resolve tid st ps).2 = (ps.map Prod.fst).max?)
    ∧ (∀ (resolve : ℤ → Option ℤ) (st : TableH × ℕ) (ps : List Point),
        (aggregateHse resolve st ps).2 = (ps.map Prod.fst).max?)
    ∧ (∀ (resolve : ℤ → Option ℤ) (tid : ℤ) (st : TableR × Ctr) (ps : List Point),
        (aggregateRudn resolve tid st ps).2 = none ↔ ps = []) := by
  refine ⟨?_, ?_, ?_⟩
  · intro _ _ _ ps; exact lastTs_eq_max? ps
  · intro _ _ ps; exact lastTs_eq_max? ps
  · intro _ _ _ ps; exact lastTs_none_iff ps

/-- C4, counterexample to the claim as stated: a call with one point whose
bucket is skipped (location miss) writes no fact row, yet returns the
point's timestamp instead of `None`. -/
theorem claim_C4_counterexample :
    (aggregateRudn resolveNone 7 emptyStR [(0, 5)]).2 = some 0
    ∧ (aggregateRudn resolveNone 7 emptyStR [(0, 5)]).1.1 = emptyStR.1
    ∧ some (0 : ℤ) ≠ none := by
  exact ⟨by decide, rfl, by decide⟩

/-! ## Claim C5 -/

/-- C5, corrected.  When location resolution misses for a bucket, no fact
row is written for it — the table is untouched by a call all of whose
points share that hour — but the diagnostic skip counter increments by
exactly **one** per skipped bucket, not by the bucket's point count
(`skipped_counter[thing_id] += 1` in `loader-rudn`, `skipped += 1` in the
HSE loader). -/
theorem claim_C5_amended :
    (∀ (resolve : ℤ → Option ℤ) (tid : ℤ) (st : TableR × Ctr) (ps : List Point)
        (h : ℤ),
        (∀ p ∈ ps, floorHour p.1 = h) → ps ≠ [] → resolve h = none →
        (aggregateRudn resolve tid st ps).1.1 = st.1
        ∧ (aggregateRudn resolve tid st ps).1.2 tid = st.2 tid + 1)
    ∧ (∀ (resolve : ℤ → Option ℤ) (st : TableH × ℕ) (ps : List Point) (h : ℤ),
        (∀ p ∈ ps, floorHour p.1 = h) → ps ≠ [] → resolve h = none →
        (aggregateHse resolve st ps).1.1 = st.1
        ∧ (aggregateHse resolve st ps).1.2 = st.2 + 1) := by
  constructor
  · intro resolve tid st ps h hall hne hres
    obtain ⟨a, ha⟩ := mkBuckets_single ps h hne hall
    have e : (aggregateRudn resolve tid st ps).1 = stepR resolve tid st (h, a) := by
      show (mkBuckets ps).foldl (stepR resolve tid) st = _
      rw [ha]
      rfl
    rw [e]
    constructor
    · show (stepR resolve tid st (h, a)).1 = st.1
      simp [stepR, hres]
    · show (stepR resolve tid st (h, a)).2 tid = st.2 tid + 1
      simp [stepR, hres, bump]
  · intro resolve st ps h hall hne hres
    obtain ⟨a, ha⟩ := mkBucketsH_single ps h hne hall
    have e : (aggregateHse resolve st ps).1 = stepH resolve st (h, a) := by
      show (mkBucketsH ps).foldl (stepH resolve) st = _
      rw [ha]
      rfl
    rw [e]
    constructor
    · show (stepH resolve st (h, a)).1 = st.1
      simp [stepH, hres]
    · show (stepH resolve st (h, a)).2 = st.2 + 1
      simp [stepH, hres]

/-- C5, counterexample to the claim as stated: a skipped two-point bucket
bumps the per-thing counter by 1, not by the bucket's point count 2. -/
theorem claim_C5_counterexample :
    (aggregateRudn resolveNone 7 emptyStR [(0, 5), (60, 6)]).1.2 7 = 1
    ∧ (1 : ℕ) ≠ 2 := by
  exact ⟨by decide, by decide⟩

theorem claim_C5_witness :
    ((∀ p ∈ [((0 : ℤ), (5 : ℚ)), (60, 6)], floorHour p.1 = 0)
      ∧ ([((0 : ℤ), (5 : ℚ)), (60, 6)] : List Point) ≠ []
      ∧ resolveNone 0 = none)
    ∧ (aggregateRudn resolveNone 7 emptyStR [(0, 5), (60, 6)]).1.1 = emptyStR.1
    ∧ (aggregateRudn resolveNone 7 emptyStR [(0, 5), (60, 6)]).1.2 7 = emptyStR.2 7 + 1 := by
  refine ⟨⟨by decide, by decide, rfl⟩, ?_, ?_⟩
  · exact (claim_C5_amended.1 resolveNone 7 emptyStR [(0, 5), (60, 6)] 0
      (by decide) (by decide) rfl).1
  · exact (claim_C5_amended.1 resolveNone 7 emptyStR [(0, 5), (60, 6)] 0
      (by decide) (by decide) rfl).2

/-! ## Claim C3: watermark monotonicity

Helper lemmas about the per-datastream latest-timestamp fold of
`ingest_observations` (HSE) and `ingest_ds_observations` (rudn). -/

theorem hseStep_none (latest : ℤ) (b : List Point) (h : lastTs b = none) :
    hseStep latest b = latest := by
  rw [hseStep, h]

theorem hseStep_some (latest : ℤ) (b : List Point) (l : ℤ) (h : lastTs b = some l) :
    hseStep latest b = if latest < l then l else latest := by
  rw [hseStep, h]

theorem hseLatest_cons (wm : ℤ) (b : List Point) (bs : List (List Point)) :
    hseLatest wm (b :: bs) = hseLatest (hseStep wm b) bs := rfl

theorem hseFold_ge (batches : List (List Point)) : ∀ wm : ℤ,
    wm ≤ hseLatest wm batches := by
  induction batches with
  | nil => intro wm; exact le_refl wm
  | cons b bs ih =>
      intro wm
      rw [hseLatest_cons]
      cases hl : lastTs b with
      | none => rw [hseStep_none wm b hl]; exact ih wm
      | some l =>
          rw [hseStep_some wm b l hl]
          rcases lt_or_le wm l with h | h
          · rw [if_pos h]; exact le_trans h.le (ih l)
          · rw [if_neg (not_lt.mpr h)]; exact ih wm

theorem hseFold_mem (batches : List (List Point)) : ∀ wm : ℤ,
    hseLatest wm batches = wm
    ∨ hseLatest wm batches ∈ batches.flatten.map Prod.fst := by
  induction batches with
  | nil => intro wm; exact Or.inl rfl
  | cons b bs ih =>
      intro wm
      rw [hseLatest_cons]
      cases hl : lastTs b with
      | none =>
          rw [hseStep_none wm b hl]
          rcases ih wm with h | h
          · exact Or.inl h
          · refine Or.inr ?_
            simp only [List.flatten_cons, List.map_append, List.mem_append]
            exact Or.inr h
      | some l =>
          rw [hseStep_some wm b l hl]
          rcases lt_or_le wm l with hc | hc
          · rw [if_pos hc]
            rcases ih l with h | h
            · refine Or.inr ?_
              rw [h]
              simp only [List.flatten_cons, List.map_append, List.mem_append]
              exact Or.inl (lastTs_mem b l hl)
            · refine Or.inr ?_
              simp only [List.flatten_cons, List.map_append, List.mem_append]
              exact Or.inr h
          · rw [if_neg (not_lt.mpr hc)]
            rcases ih wm with h | h
            · exact Or.inl h
            · refine Or.inr ?_
              simp only [List.flatten_cons, List.map_append, List.mem_append]
              exact Or.inr h

theorem hseFold_ub (batches : List (List Point)) : ∀ wm : ℤ,
    ∀ t ∈ batches.flatten.map Prod.fst, t ≤ hseLatest wm batches := by
  induction batches with
  | nil => intro wm t ht; simp at ht
  | cons b bs ih =>
      intro wm t ht
      rw [hseLatest_cons]
      simp only [List.flatten_cons, List.map_append, List.mem_append] at ht
      cases hl : lastTs b with
      | none =>
          rw [hseStep_none wm b hl]
          rcases ht with ht | ht
          · have hb : b = [] := (lastTs_none_iff b).mp hl
            rw [hb] at ht
            simp at ht
          · exact ih wm t ht
      | some l =>
          rw [hseStep_some wm b l hl]
          rcases ht with ht | ht
          · obtain ⟨p, hp, hpt⟩ := List.mem_map.mp ht
            have hle : t ≤ l := hpt ▸ lastTs_ge b l hl p hp
            rcases lt_or_le wm l with hc | hc
            · rw [if_pos hc]
              exact le_trans hle (hseFold_ge bs l)
            · rw [if_neg (not_lt.mpr hc)]
              exact le_trans (le_trans hle hc) (hseFold_ge bs wm)
          · exact ih _ t ht

theorem hseFold_stable (batches : List (List Point)) : ∀ wm : ℤ,
    (∀ t ∈ batches.flatten.map Prod.fst, t ≤ wm) →
    hseLatest wm batches = wm := by
  induction batches with
  | nil => intro wm _; rfl
  | cons b bs ih =>
      intro wm hub
      rw [hseLatest_cons]
      cases hl : lastTs b with
      | none =>
          rw [hseStep_none wm b hl]
          exact ih wm (fun t ht => hub t (by
            simp only [List.flatten_cons, List.map_append, List.mem_append]
            exact Or.inr ht))
      | some l =>
          have hlwm : l ≤ wm := by
            have hmem := lastTs_mem b l hl
            exact hub l (by
              simp only [List.flatten_cons, List.map_append, List.mem_append]
              exact Or.inl hmem)
          rw [hseStep_some wm b l hl, if_neg (not_lt.mpr hlwm)]
          exact ih wm (fun t ht => hub t (by
            simp only [List.flatten_cons, List.map_append, List.mem_append]
            exact Or.inr ht))

theorem rudnStep_none (acc : Option ℤ) (b : List Point) (h : lastTs b = none) :
    rudnStep acc b = acc := by
  rw [rudnStep, h]

theorem rudnStep_some (acc : Option ℤ) (b : List Point) (l : ℤ)
    (h : lastTs b = some l) : rudnStep acc b = optMaxStep acc l := by
  rw [rudnStep, h]

theorem rudnFold_mem (batches : List (List Point)) : ∀ acc : Option ℤ, ∀ v : ℤ,
    batches.foldl rudnStep acc = some v →
    acc = some v ∨ v ∈ batches.flatten.map Prod.fst := by
  induction batches with
  | nil => intro acc v h; exact Or.inl h
  | cons b bs ih =>
      intro acc v h
      rw [List.foldl_cons] at h
      cases hl : lastTs b with
      | none =>
          rw [rudnStep_none acc b hl] at h
          rcases ih acc v h with h2 | h2
          · exact Or.inl h2
          · refine Or.inr ?_
            simp only [List.flatten_cons, List.map_append, List.mem_append]
            exact Or.inr h2
      | some l =>
          rw [rudnStep_some acc b l hl] at h
          rcases ih (optMaxStep acc l) v h with h2 | h2
          · cases acc with
            | none =>
                have hv : l = v := Option.some.inj h2
                refine Or.inr ?_
                simp only [List.flatten_cons, List.map_append, List.mem_append]
                exact Or.inl (hv ▸ lastTs_mem b l hl)
            | some x =>
                rcases lt_or_le x l with hc | hc
                · have e : optMaxStep (some x) l = some l := by
                    show (if x < l then some l else some x) = some l
                    rw [if_pos hc]
                  rw [e] at h2
                  have hv : l = v := Option.some.inj h2
                  refine Or.inr ?_
                  simp only [List.flatten_cons, List.map_append, List.mem_append]
                  exact Or.inl (hv ▸ lastTs_mem b l hl)
                · have e : optMaxStep (some x) l = some x := by
                    show (if x < l then some l else some x) = some x
                    rw [if_neg (not_lt.mpr hc)]
                  rw [e] at h2
                  exact Or.inl h2
          · refine Or.inr ?_
            simp only [List.flatten_cons, List.map_append, List.mem_append]
            exact Or.inr h2

/-- C3, confirmed.  (i) In the HSE loader, `set_watermark` is invoked for a
datastream only when the batch maximum strictly exceeds the stored (or
default) watermark `wm`, and the value passed is exactly the maximum
observation timestamp of the whole processed stream; if nothing exceeds
`wm`, it is not invoked at all.  (ii) In `loader-rudn`, which trusts the
server-side `phenomenonTime gt wm` filter, the value passed, when any, is
one of the fetched timestamps — hence strictly above `wm` whenever the
fetched observations honour the filter.  So across a run the persisted
watermark never moves backward. -/
theorem claim_C3 :
    (∀ (wm : ℤ) (batches : List (List Point)) (v : ℤ),
        hsePass wm batches = some v →
        wm < v ∧ v ∈ batches.flatten.map Prod.fst
          ∧ ∀ t ∈ batches.flatten.map Prod.fst, t ≤ v)
    ∧ (∀ (wm : ℤ) (batches : List (List Point)),
        (∀ p ∈ batches.flatten, p.1 ≤ wm) → hsePass wm batches = none)
    ∧ (∀ (wm : ℤ) (batches : List (List Point)) (v : ℤ),
        (∀ p ∈ batches.flatten, wm < p.1) → rudnPass batches = some v → wm < v) := by
  refine ⟨?_, ?_, ?_⟩
  · intro wm batches v h
    rw [hsePass] at h
    by_cases hc : wm < hseLatest wm batches
    · rw [if_pos hc] at h
      have hv := Option.some.inj h
      subst hv
      refine ⟨hc, ?_, fun t ht => hseFold_ub batches wm t ht⟩
      rcases hseFold_mem batches wm with h2 | h2
      · rw [h2] at hc
        exact absurd hc (lt_irrefl wm)
      · exact h2
    · rw [if_neg hc] at h
      cases h
  · intro wm batches hub
    rw [hsePass]
    have hst : hseLatest wm batches = wm := by
      refine hseFold_stable batches wm ?_
      intro t ht
      obtain ⟨p, hp, hpt⟩ := List.mem_map.mp ht
      exact hpt ▸ hub p hp
    rw [hst, if_neg (lt_irrefl wm)]
  · intro wm batches v hgt h
    rcases rudnFold_mem batches none v h with h2 | h2
    · cases h2
    · obtain ⟨p, hp, hpt⟩ := List.mem_map.mp h2
      exact hpt ▸ hgt p hp

theorem claim_C3_witness :
    (hsePass 0 [[((1 : ℤ), (5 : ℚ))], [(2, 6)]] = some 2 ∧ (0 : ℤ) < 2)
    ∧ (∀ p ∈ ([[((1 : ℤ), (5 : ℚ))], [(2, 6)]] : List (List Point)).flatten, (0 : ℤ) < p.1)
    ∧ (rudnPass [[((1 : ℤ), (5 : ℚ))], [(2, 6)]] = some 2 ∧ (0 : ℤ) < 2) := by
  refine ⟨⟨by decide, ?_⟩, by decide, ⟨by decide, ?_⟩⟩
  · exact (claim_C3.1 0 [[((1 : ℤ), (5 : ℚ))], [(2, 6)]] 2 (by decide)).1
  · exact claim_C3.2.2 0 [[((1 : ℤ), (5 : ℚ))], [(2, 6)]] 2 (by decide) (by decide)

/-! ## Claim C9: geometry frame condition -/

/-- C9, confirmed.  Re-upserting a Location whose remote record lacks
coordinates (`EXCLUDED.geom` is `NULL`) keeps the stored geometry
(`COALESCE(EXCLUDED.geom, location.geom)`), while the name is overwritten
with the remote value (`name = EXCLUDED.name`); all other rows are
untouched. -/
theorem claim_C9 :
    ∀ (tbl : ℤ → Option LocRow) (lid : ℤ) (nm : Option String) (r : LocRow)
      (g : ℚ × ℚ),
      tbl lid = some r → r.geom = some g →
      (upsertLocation tbl lid nm none) lid = some ⟨nm, some g⟩
      ∧ ∀ k, k ≠ lid → (upsertLocation tbl lid nm none) k = tbl k := by
  intro tbl lid nm r g hr hg
  constructor
  · show (if lid = lid then
        some (match tbl lid with
          | none => (⟨nm, none⟩ : LocRow)
          | some r => ⟨nm, match (none : Option (ℚ × ℚ)) with
              | some c => some c
              | none => r.geom⟩)
      else tbl lid) = some ⟨nm, some g⟩
    rw [if_pos rfl, hr]
    show some (⟨nm, r.geom⟩ : LocRow) = some ⟨nm, some g⟩
    rw [hg]
  · intro k hk
    show (if k = lid then _ else tbl k) = tbl k
    rw [if_neg hk]

def tblC9 : ℤ → Option LocRow :=
  fun k => if k = 3 then some ⟨some "Campus", some (37, 55)⟩ else none

theorem claim_C9_witness :
    (tblC9 3 = some ⟨some "Campus", some (37, 55)⟩)
    ∧ (upsertLocation tblC9 3 (some "Campus v2") none) 3
        = some ⟨some "Campus v2", some (37, 55)⟩
    ∧ (upsertLocation tblC9 3 (some "Campus v2") none) 4 = tblC9 4 := by
  refine ⟨by decide, ?_, ?_⟩
  · exact (claim_C9 tblC9 3 (some "Campus v2") ⟨some "Campus", some (37, 55)⟩ (37, 55)
      (by decide) rfl).1
  · exact (claim_C9 tblC9 3 (some "Campus v2") ⟨some "Campus", some (37, 55)⟩ (37, 55)
      (by decide) rfl).2 4 (by decide)

/-! ## Claim C10: shared watermark of a composite stream's virtual datastreams -/

theorem mdStep_hit (latest : Option ℤ) (o : MdObs) (dt : ℤ)
    (h1 : o.ts = some dt) (h2 : o.res.isSome = true) :
    mdStep latest o = optMaxStep latest dt := by
  rw [mdStep, h1]
  cases hr : o.res with
  | none => rw [hr] at h2; cases h2
  | some rl => rfl

theorem mdStep_miss (latest : Option ℤ) (o : MdObs)
    (h : (if o.res.isSome then o.ts else none) = none) :
    mdStep latest o = latest := by
  rw [mdStep]
  cases h1 : o.ts with
  | none => cases o.res <;> rfl
  | some dt =>
      cases hr : o.res with
      | none => rfl
      | some rl =>
          rw [h1, hr] at h
          simp at h

theorem mdLatest_fold (obs : List MdObs) : ∀ acc : Option ℤ,
    obs.foldl mdStep acc
      = (obs.filterMap (fun o => if o.res.isSome then o.ts else none)).foldl
          optMaxStep acc := by
  induction obs with
  | nil => intro acc; rfl
  | cons o obs ih =>
      intro acc
      rw [List.foldl_cons]
      cases hf : (if o.res.isSome then o.ts else none) with
      | none =>
          have e : (o :: obs).filterMap (fun o => if o.res.isSome then o.ts else none)
              = obs.filterMap (fun o => if o.res.isSome then o.ts else none) := by
            simp only [List.filterMap_cons]
            rw [hf]
          rw [e, mdStep_miss acc o hf]
          exact ih acc
      | some dt =>
          have h1 : o.ts = some dt := by
            by_cases hr : o.res.isSome
            · rw [if_pos hr] at hf; exact hf
            · rw [if_neg hr] at hf; cases hf
          have h2 : o.res.isSome = true := by
            by_cases hr : o.res.isSome
            · exact hr
            · rw [if_neg hr] at hf; cases hf
          have e : (o :: obs).filterMap (fun o => if o.res.isSome then o.ts else none)
              = dt :: obs.filterMap (fun o => if o.res.isSome then o.ts else none) := by
            simp only [List.filterMap_cons]
            rw [hf]
          rw [e, List.foldl_cons, mdStep_hit acc o dt h1 h2]
          exact ih (optMaxStep acc dt)

/-- C10, confirmed.  For a composite stream `md_id`: the fetch filter is
built from the watermark of virtual component 0 only (`md_id * 100 + 0`);
after the pass, when any observation produced a timestamp, every existing
virtual datastream id `md_id * 100 + idx` for `idx < 20` receives a
`set_watermark` call with one and the same value — the maximum parsed
`phenomenonTime` over the observations whose `result` is a list, counted
regardless of whether any component value was parseable — and nothing else
is written. -/
theorem claim_C10 :
    (∀ (tbl : ℤ → Option ℤ) (mdId dflt : ℤ),
        mdStartWm tbl mdId dflt = (tbl (mdId * 100 + 0)).getD dflt)
    ∧ (∀ (mdId : ℤ) (existing : ℤ → Bool) (obs : List MdObs) (t : ℤ) (w : ℤ × ℤ),
        mdLatest obs = some t →
        w ∈ setWatermarkCallsMd mdId existing (mdLatest obs) →
        w.2 = t ∧ ∃ idx : ℕ, idx < 20 ∧ w.1 = mdId * 100 + (idx : ℤ)
          ∧ existing w.1 = true)
    ∧ (∀ (mdId : ℤ) (existing : ℤ → Bool) (obs : List MdObs) (t : ℤ) (idx : ℕ),
        idx < 20 → existing (mdId * 100 + (idx : ℤ)) = true → mdLatest obs = some t →
        (mdId * 100 + (idx : ℤ), t) ∈ setWatermarkCallsMd mdId existing (mdLatest obs))
    ∧ (∀ obs : List MdObs,
        mdLatest obs
          = (obs.filterMap (fun o => if o.res.isSome then o.ts else none)).max?) := by
  refine ⟨fun tbl mdId dflt => rfl, ?_, ?_, ?_⟩
  · intro mdId existing obs t w ht hw
    rw [ht] at hw
    show _ ∧ _
    rw [setWatermarkCallsMd] at hw
    obtain ⟨idx, hidx, hfx⟩ := List.mem_filterMap.mp hw
    by_cases he : existing (mdId * 100 + (idx : ℤ)) = true
    · rw [if_pos he] at hfx
      have hwv : (mdId * 100 + (idx : ℤ), t) = w := Option.some.inj hfx
      refine ⟨by rw [← hwv], idx, List.mem_range.mp hidx, by rw [← hwv], ?_⟩
      rw [← hwv]
      exact he
    · rw [if_neg he] at hfx
      cases hfx
  · intro mdId existing obs t idx hidx hex ht
    rw [ht, setWatermarkCallsMd]
    refine List.mem_filterMap.mpr ⟨idx, List.mem_range.mpr hidx, ?_⟩
    rw [if_pos hex]
  · intro obs
    rw [mdLatest, mdLatest_fold obs none, foldl_optMax_none]

def existingW : ℤ → Bool := fun k => k == 501

def obsW : List MdObs := [⟨some 9, some [some 1]⟩]

theorem claim_C10_witness :
    ((1 : ℕ) < 20 ∧ existingW ((5 : ℤ) * 100 + ((1 : ℕ) : ℤ)) = true
      ∧ mdLatest obsW = some 9)
    ∧ ((5 : ℤ) * 100 + ((1 : ℕ) : ℤ), (9 : ℤ))
        ∈ setWatermarkCallsMd 5 existingW (mdLatest obsW) := by
  refine ⟨⟨by decide, by decide, by decide⟩, ?_⟩
  exact claim_C10.2.2.1 5 existingW obsW 9 1 (by decide) (by decide) (by decide)

/-! ## Claim C8: API client error discipline -/

theorem attemptPage_exhausted (resp : ℕ → FrostResp) (h : ∀ i, i < 4 → resp i = .err) :
    attemptPage resp 4 0 = (.failed, [4/5, 8/5, 16/5, 32/5]) := by
  have e0 := h 0 (by norm_num)
  have e1 := h 1 (by norm_num)
  have e2 := h 2 (by norm_num)
  have e3 := h 3 (by norm_num)
  simp [attemptPage, e0, e1, e2, e3]
  norm_num

/-- C8, confirmed.  (i) A 404 on the first request makes `frost_get` yield
nothing and terminate normally (no error).  (ii) A page request that fails
`k < 4` times and then succeeds is retried with exponential backoff sleeps
`0.8 * 2^i` for `i < k`, and its values are delivered.  (iii) Four
consecutive failures exhaust the retry budget: all four backoff sleeps
happen, the generator raises (models `RuntimeError: GET failed after
retries`), and nothing from that request is yielded. -/
theorem claim_C8 :
    (∀ (world : ℕ → ℕ → FrostResp) (fuel : ℕ),
        0 < fuel → world 0 0 = .notFound →
        frostGet world fuel 0 = ⟨[], true, []⟩)
    ∧ (∀ (resp : ℕ → FrostResp) (k : ℕ) (vals : List ℕ) (next : Bool),
        k < 4 → (∀ i, i < k → resp i = .err) → resp k = .ok vals next →
        attemptPage resp 4 0
          = (.got vals next, (List.range k).map (fun i => (4/5 : ℚ) * 2 ^ i)))
    ∧ (∀ resp : ℕ → FrostResp, (∀ i, i < 4 → resp i = .err) →
        attemptPage resp 4 0 = (.failed, [4/5, 8/5, 16/5, 32/5]))
    ∧ (∀ (world : ℕ → ℕ → FrostResp) (fuel : ℕ),
        0 < fuel → (∀ i, i < 4 → world 0 i = .err) →
        frostGet world fuel 0 = ⟨[], false, [4/5, 8/5, 16/5, 32/5]⟩) := by
  refine ⟨?_, ?_, ?_, ?_⟩
  · intro world fuel hf h404
    cases fuel with
    | zero => cases hf
    | succ fuel => simp [frostGet, attemptPage, h404]
  · intro resp k vals next hk herr hok
    interval_cases k
    · simp [attemptPage, hok]
    · have e0 := herr 0 (by norm_num)
      simp [attemptPage, e0, hok, List.range_succ]
    · have e0 := herr 0 (by norm_num)
      have e1 := herr 1 (by norm_num)
      simp [attemptPage, e0, e1, hok, List.range_succ]
    · have e0 := herr 0 (by norm_num)
      have e1 := herr 1 (by norm_num)
      have e2 := herr 2 (by norm_num)
      simp [attemptPage, e0, e1, e2, hok, List.range_succ]
  · exact attemptPage_exhausted
  · intro world fuel hf herr
    cases fuel with
    | zero => cases hf
    | succ fuel =>
        have e := attemptPage_exhausted (world 0) herr
        simp [frostGet, e]

def worldNF : ℕ → ℕ → FrostResp := fun _ _ => .notFound

def respRetry : ℕ → FrostResp := fun i => if i < 2 then .err else .ok [3] false

def worldDown : ℕ → ℕ → FrostResp := fun _ _ => .err

theorem claim_C8_witness :
    (worldNF 0 0 = .notFound ∧ frostGet worldNF 1 0 = ⟨[], true, []⟩)
    ∧ (respRetry 2 = .ok [3] false
      ∧ attemptPage respRetry 4 0 = (.got [3] false, [4/5, 8/5]))
    ∧ frostGet worldDown 1 0 = ⟨[], false, [4/5, 8/5, 16/5, 32/5]⟩ := by
  refine ⟨⟨rfl, ?_⟩, ⟨rfl, ?_⟩, ?_⟩
  · exact claim_C8.1 worldNF 1 (by norm_num) rfl
  · refine (claim_C8.2.1 respRetry 2 [3] false (by norm_num)
      (fun i hi => ?_) rfl).trans (by norm_num [List.range_succ])
    interval_cases i <;> rfl
  · exact claim_C8.2.2.2 worldDown 1 (by norm_num) (fun i _ => rfl)

/-! ## Claim C6: thing-location interval construction -/

theorem nextEnd_nil : nextEnd [] = ⊤ := rfl

theorem nextEnd_cons (e₂ : ℤ × ℤ) (l : List (ℤ × ℤ)) :
    nextEnd (e₂ :: l) = (e₂.1 : WithTop ℤ) := rfl

theorem sortEvents_sorted (es : List (ℤ × ℤ)) :
    (sortEvents es).Sorted (fun a b => a.1 ≤ b.1) :=
  List.sorted_insertionSort _ es

theorem mkIntervalsH_start_mem (es : List (ℤ × ℤ)) :
    ∀ iv ∈ mkIntervalsH es, iv.start_time ∈ es.map Prod.fst := by
  induction es with
  | nil => intro iv hiv; cases hiv
  | cons e rest ih =>
      intro iv hiv
      rw [mkIntervalsH] at hiv
      by_cases hc : (e.1 : WithTop ℤ) < nextEnd rest
      · rw [if_pos hc] at hiv
        rcases List.mem_cons.mp hiv with hiv | hiv
        · rw [hiv]
          simp
        · simp only [List.map_cons, List.mem_cons]
          exact Or.inr (ih iv hiv)
      · rw [if_neg hc] at hiv
        simp only [List.map_cons, List.mem_cons]
        exact Or.inr (ih iv hiv)

theorem mkIntervalsRudn_start_mem (es : List (ℤ × ℤ)) :
    ∀ iv ∈ mkIntervalsRudn es, iv.start_time ∈ es.map Prod.fst := by
  induction es with
  | nil => intro iv hiv; cases hiv
  | cons e rest ih =>
      intro iv hiv
      rw [mkIntervalsRudn] at hiv
      rcases List.mem_cons.mp hiv with hiv | hiv
      · rw [hiv]
        simp
      · simp only [List.map_cons, List.mem_cons]
        exact Or.inr (ih iv hiv)

theorem mkIntervalsH_head (e : ℤ × ℤ) (rest : List (ℤ × ℤ)) :
    (e :: rest).Sorted (fun a b => a.1 ≤ b.1) →
    ∃ iv tl, mkIntervalsH (e :: rest) = iv :: tl ∧ iv.start_time = e.1 := by
  induction rest generalizing e with
  | nil =>
      intro _
      refine ⟨⟨e.2, e.1, ⊤⟩, [], ?_, rfl⟩
      rw [mkIntervalsH, nextEnd_nil, if_pos (WithTop.coe_lt_top e.1)]
      rfl
  | cons e₂ rest ih =>
      intro hs
      have h12 : e.1 ≤ e₂.1 :=
        (List.pairwise_cons.mp hs).1 e₂ (List.mem_cons_self e₂ rest)
      have hs2 : (e₂ :: rest).Sorted (fun a b => a.1 ≤ b.1) :=
        (List.pairwise_cons.mp hs).2
      by_cases hc : (e.1 : WithTop ℤ) < nextEnd (e₂ :: rest)
      · exact ⟨⟨e.2, e.1, nextEnd (e₂ :: rest)⟩, mkIntervalsH (e₂ :: rest),
          by rw [mkIntervalsH, if_pos hc], rfl⟩
      · have heq : e.1 = e₂.1 := by
          rw [nextEnd_cons] at hc
          have h21 : e₂.1 ≤ e.1 := by exact_mod_cast not_lt.mp hc
          omega
        obtain ⟨iv, tl, hiv, hst⟩ := ih e₂ hs2
        exact ⟨iv, tl, by rw [mkIntervalsH, if_neg hc]; exact hiv, by rw [hst, heq]⟩

theorem mkIntervalsH_chain (es : List (ℤ × ℤ)) :
    es.Sorted (fun a b => a.1 ≤ b.1) → List.Chain' Contig (mkIntervalsH es) := by
  induction es with
  | nil => intro _; exact List.chain'_nil
  | cons e rest ih =>
      intro hs
      have hs2 := List.Pairwise.sublist (List.sublist_cons_self e rest) hs
      cases rest with
      | nil =>
          rw [mkIntervalsH, nextEnd_nil, if_pos (WithTop.coe_lt_top e.1)]
          rw [show mkIntervalsH ([] : List (ℤ × ℤ)) = [] from rfl]
          exact List.chain'_singleton _
      | cons e₂ rest₂ =>
          rw [mkIntervalsH]
          by_cases hc : (e.1 : WithTop ℤ) < nextEnd (e₂ :: rest₂)
          · rw [if_pos hc]
            obtain ⟨iv, tl, hiv, hst⟩ := mkIntervalsH_head e₂ rest₂ hs2
            rw [hiv]
            refine List.chain'_cons.mpr ⟨?_, by rw [← hiv]; exact ih hs2⟩
            show nextEnd (e₂ :: rest₂) = (iv.start_time : WithTop ℤ)
            rw [nextEnd_cons, hst]
          · rw [if_neg hc]
            exact ih hs2

theorem mkIntervalsRudn_chain (es : List (ℤ × ℤ)) :
    List.Chain' Contig (mkIntervalsRudn es) := by
  induction es with
  | nil => exact List.chain'_nil
  | cons e rest ih =>
      cases rest with
      | nil =>
          rw [mkIntervalsRudn]
          rw [show mkIntervalsRudn ([] : List (ℤ × ℤ)) = [] from rfl]
          exact List.chain'_singleton _
      | cons e₂ rest₂ =>
          rw [mkIntervalsRudn, show mkIntervalsRudn (e₂ :: rest₂)
            = ⟨e₂.2, e₂.1, nextEnd rest₂⟩ :: mkIntervalsRudn rest₂ from rfl]
          refine List.chain'_cons.mpr ⟨?_, ?_⟩
          · show nextEnd (e₂ :: rest₂) = ((e₂.1 : ℤ) : WithTop ℤ)
            rw [nextEnd_cons]
          · rw [show (⟨e₂.2, e₂.1, nextEnd rest₂⟩ : TLInterval) :: mkIntervalsRudn rest₂
              = mkIntervalsRudn (e₂ :: rest₂) from rfl]
            exact ih

theorem sorted_head_le (e : ℤ × ℤ) (rest : List (ℤ × ℤ))
    (hs : (e :: rest).Sorted (fun a b => a.1 ≤ b.1)) :
    ∀ t ∈ (e :: rest).map Prod.fst, e.1 ≤ t := by
  intro t ht
  simp only [List.map_cons, List.mem_cons] at ht
  rcases ht with rfl | ht
  · exact le_refl _
  · obtain ⟨p, hp, hpt⟩ := List.mem_map.mp ht
    exact hpt ▸ (List.pairwise_cons.mp hs).1 p hp

theorem mkIntervalsH_pairwise (es : List (ℤ × ℤ)) :
    es.Sorted (fun a b => a.1 ≤ b.1) →
    (mkIntervalsH es).Pairwise
      (fun a b => a.end_time ≤ (b.start_time : WithTop ℤ)) := by
  induction es with
  | nil => intro _; exact List.Pairwise.nil
  | cons e rest ih =>
      intro hs
      have hs2 := List.Pairwise.sublist (List.sublist_cons_self e rest) hs
      cases rest with
      | nil =>
          rw [mkIntervalsH, nextEnd_nil, if_pos (WithTop.coe_lt_top e.1)]
          rw [show mkIntervalsH ([] : List (ℤ × ℤ)) = [] from rfl]
          exact List.pairwise_singleton _ _
      | cons e₂ rest₂ =>
          rw [mkIntervalsH]
          by_cases hc : (e.1 : WithTop ℤ) < nextEnd (e₂ :: rest₂)
          · rw [if_pos hc]
            refine List.pairwise_cons.mpr ⟨?_, ih hs2⟩
            intro b hb
            have hmem := mkIntervalsH_start_mem (e₂ :: rest₂) b hb
            have hle : e₂.1 ≤ b.start_time := sorted_head_le e₂ rest₂ hs2 _ hmem
            show nextEnd (e₂ :: rest₂) ≤ (b.start_time : WithTop ℤ)
            rw [nextEnd_cons]
            exact_mod_cast hle
          · rw [if_neg hc]
            exact ih hs2

theorem mkIntervalsRudn_pairwise (es : List (ℤ × ℤ)) :
    es.Sorted (fun a b => a.1 ≤ b.1) →
    (mkIntervalsRudn es).Pairwise
      (fun a b => a.end_time ≤ (b.start_time : WithTop ℤ)) := by
  induction es with
  | nil => intro _; exact List.Pairwise.nil
  | cons e rest ih =>
      intro hs
      have hs2 := List.Pairwise.sublist (List.sublist_cons_self e rest) hs
      cases rest with
      | nil =>
          rw [mkIntervalsRudn]
          rw [show mkIntervalsRudn ([] : List (ℤ × ℤ)) = [] from rfl]
          exact List.pairwise_singleton _ _
      | cons e₂ rest₂ =>
          rw [mkIntervalsRudn]
          refine List.pairwise_cons.mpr ⟨?_, ih hs2⟩
          intro b hb
          have hmem := mkIntervalsRudn_start_mem (e₂ :: rest₂) b hb
          have hle : e₂.1 ≤ b.start_time := sorted_head_le e₂ rest₂ hs2 _ hmem
          show nextEnd (e₂ :: rest₂) ≤ (b.start_time : WithTop ℤ)
          rw [nextEnd_cons]
          exact_mod_cast hle

theorem mkIntervalsH_ne_nil (es : List (ℤ × ℤ)) (hne : es ≠ []) :
    mkIntervalsH es ≠ [] := by
  induction es with
  | nil => exact absurd rfl hne
  | cons e rest ih =>
      cases rest with
      | nil =>
          rw [mkIntervalsH, nextEnd_nil, if_pos (WithTop.coe_lt_top e.1)]
          exact List.cons_ne_nil _ _
      | cons e₂ rest₂ =>
          rw [mkIntervalsH]
          by_cases hc : (e.1 : WithTop ℤ) < nextEnd (e₂ :: rest₂)
          · rw [if_pos hc]
            exact List.cons_ne_nil _ _
          · rw [if_neg hc]
            exact ih (List.cons_ne_nil _ _)

theorem mkIntervalsH_last (es : List (ℤ × ℤ)) :
    ∀ iv, (mkIntervalsH es).getLast? = some iv → iv.end_time = ⊤ := by
  induction es with
  | nil => intro iv h; cases h
  | cons e rest ih =>
      intro iv h
      cases rest with
      | nil =>
          rw [mkIntervalsH, nextEnd_nil, if_pos (WithTop.coe_lt_top e.1),
              show mkIntervalsH ([] : List (ℤ × ℤ)) = [] from rfl,
              List.getLast?_singleton] at h
          rw [(Option.some.inj h).symm]
      | cons e₂ rest₂ =>
          rw [mkIntervalsH] at h
          by_cases hc : (e.1 : WithTop ℤ) < nextEnd (e₂ :: rest₂)
          · rw [if_pos hc] at h
            cases htl : mkIntervalsH (e₂ :: rest₂) with
            | nil => exact absurd htl (mkIntervalsH_ne_nil _ (List.cons_ne_nil _ _))
            | cons iv₂ tl =>
                rw [htl, List.getLast?_cons_cons] at h
                apply ih iv
                rw [htl]
                exact h
          · rw [if_neg hc] at h
            exact ih iv h

theorem mkIntervalsRudn_last (es : List (ℤ × ℤ)) :
    ∀ iv, (mkIntervalsRudn es).getLast? = some iv → iv.end_time = ⊤ := by
  induction es with
  | nil => intro iv h; cases h
  | cons e rest ih =>
      intro iv h
      cases rest with
      | nil =>
          rw [mkIntervalsRudn, nextEnd_nil,
              show mkIntervalsRudn ([] : List (ℤ × ℤ)) = [] from rfl,
              List.getLast?_singleton] at h
          rw [(Option.some.inj h).symm]
      | cons e₂ rest₂ =>
          rw [mkIntervalsRudn] at h
          cases htl : mkIntervalsRudn (e₂ :: rest₂) with
          | nil => cases htl
          | cons iv₂ tl =>
              rw [htl, List.getLast?_cons_cons] at h
              apply ih iv
              rw [htl]
              exact h

/-- C6, corrected.  Both variants sort the historical-location events
ascending by time and build half-open intervals each ending where the next
begins, the last at the `datetime.max` sentinel.  For the HSE construction
(which drops empty intervals) and for the rudn construction **without a
location allow-list**, the result is pairwise non-overlapping, contiguous,
and its final interval ends at the sentinel — for every event log.  But
when `TARGET_LOCATIONS` is configured, the rudn variant silently drops the
interval rows of non-allowed locations, which breaks contiguity and can
leave the final stored interval with a finite end (see the
counterexample). -/
theorem claim_C6_amended :
    (∀ es : List (ℤ × ℤ),
        (buildIntervalsH es).Pairwise NonOverlap
        ∧ List.Chain' Contig (buildIntervalsH es)
        ∧ ∀ iv, (buildIntervalsH es).getLast? = some iv → iv.end_time = ⊤)
    ∧ (∀ es : List (ℤ × ℤ),
        (buildIntervalsRudn none es).Pairwise NonOverlap
        ∧ List.Chain' Contig (buildIntervalsRudn none es)
        ∧ ∀ iv, (buildIntervalsRudn none es).getLast? = some iv → iv.end_time = ⊤) := by
  constructor
  · intro es
    have hs := sortEvents_sorted es
    exact ⟨(mkIntervalsH_pairwise _ hs).imp (fun h => Or.inl h),
      mkIntervalsH_chain _ hs, mkIntervalsH_last _⟩
  · intro es
    have hs := sortEvents_sorted es
    exact ⟨(mkIntervalsRudn_pairwise _ hs).imp (fun h => Or.inl h),
      mkIntervalsRudn_chain _, mkIntervalsRudn_last _⟩

/-- C6, counterexample to the claim as stated: with allow-list `[1]`, the
rudn construction for events `[(0,loc 1), (10,loc 2), (20,loc 1)]` stores
two intervals with a gap (`[0,10)` and `[20,∞)`: the first ends at 10, the
next starts at 20), and for `[(0,loc 1), (10,loc 2)]` the final stored
interval ends at the finite 10, not the sentinel. -/
theorem claim_C6_counterexample :
    buildIntervalsRudn (some [1]) [(0, 1), (10, 2), (20, 1)]
      = [⟨1, 0, ((10 : ℤ) : WithTop ℤ)⟩, ⟨1, 20, ⊤⟩]
    ∧ ¬ Contig (⟨1, 0, ((10 : ℤ) : WithTop ℤ)⟩ : TLInterval) ⟨1, 20, ⊤⟩
    ∧ buildIntervalsRudn (some [1]) [(0, 1), (10, 2)] = [⟨1, 0, ((10 : ℤ) : WithTop ℤ)⟩]
    ∧ (buildIntervalsRudn (some [1]) [(0, 1), (10, 2)]).getLast?
        = some ⟨1, 0, ((10 : ℤ) : WithTop ℤ)⟩
    ∧ ((10 : ℤ) : WithTop ℤ) ≠ ⊤ := by
  refine ⟨by decide, ?_, by decide, by decide, by decide⟩
  intro h
  have h2 : ((10 : ℤ) : WithTop ℤ) = ((20 : ℤ) : WithTop ℤ) := h
  exact absurd h2 (by decide)

theorem claim_C6_witness :
    ((buildIntervalsH [(0, 1), (10, 2)]).getLast? = some ⟨2, 10, ⊤⟩)
    ∧ ((⟨2, 10, ⊤⟩ : TLInterval).end_time = ⊤)
    ∧ List.Chain' Contig (buildIntervalsH [(0, 1), (10, 2)]) := by
  refine ⟨by decide, ?_, ?_⟩
  · exact (claim_C6_amended.1 [(0, 1), (10, 2)]).2.2 ⟨2, 10, ⊤⟩ (by decide)
  · exact (claim_C6_amended.1 [(0, 1), (10, 2)]).2.1

/-! ## Claim C7: id normalisation -/

theorem norm_str_of_parse (s : String) (kind : String) (n : ℤ)
    (hp : parsePyInt (stripWs (cps s)) = some n) :
    norm_bigint_id (.str s) kind = n := by
  show (match parsePyInt (stripWs (cps s)) with
        | some n => n
        | none => hashId kind (stripWs (cps s))) = n
  rw [hp]

theorem norm_str_of_hash (s : String) (kind : String)
    (hp : parsePyInt (stripWs (cps s)) = none) :
    norm_bigint_id (.str s) kind = hashId kind (stripWs (cps s)) := by
  show (match parsePyInt (stripWs (cps s)) with
        | some n => n
        | none => hashId kind (stripWs (cps s))) = _
  rw [hp]

theorem hashId_range (kind : String) (sraw : List ℕ) :
    800000000000000 ≤ hashId kind sraw ∧ hashId kind sraw < 900000000000000 := by
  have h1 : sha1First8 (utf8 (cps kind ++ 58 :: sraw)) % 100000000000000
      < 100000000000000 :=
    Nat.mod_lt _ (by norm_num)
  simp only [hashId, BIG_STR_OFFSET]
  omega

/-- C7, confirmed.  `norm_bigint_id` is a pure function, so deterministic;
native integers and integer-parsing strings pass through verbatim; a
non-numeric string maps to
`BIG_STR_OFFSET + (first 8 SHA-1 digest bytes of "{kind}:{sraw}") mod 10^14`,
which always lies in the reserved range `[8·10^14, 9·10^14)` — disjoint
from any native id below the offset — and separates entity kinds:
`"Sensor-42"` hashes to different ids under `"Things"` and
`"Locations"`. -/
theorem claim_C7 :
    (∀ (raw : RawId) (kind : String),
        norm_bigint_id raw kind = norm_bigint_id raw kind)
    ∧ (∀ (n : ℤ) (kind : String), norm_bigint_id (.int n) kind = n)
    ∧ (∀ (s kind : String) (n : ℤ),
        parsePyInt (stripWs (cps s)) = some n → norm_bigint_id (.str s) kind = n)
    ∧ (∀ s kind : String,
        parsePyInt (stripWs (cps s)) = none →
        800000000000000 ≤ norm_bigint_id (.str s) kind
          ∧ norm_bigint_id (.str s) kind < 900000000000000)
    ∧ norm_bigint_id (.str "Sensor-42") "Things" = 863120950925020
    ∧ norm_bigint_id (.str "Sensor-42") "Locations" = 879468373683783
    ∧ norm_bigint_id (.str "Sensor-42") "Things"
        ≠ norm_bigint_id (.str "Sensor-42") "Locations"
    ∧ (∀ (n : ℤ) (s kind kind₂ : String),
        n < 800000000000000 → parsePyInt (stripWs (cps s)) = none →
        norm_bigint_id (.int n) kind ≠ norm_bigint_id (.str s) kind₂) := by
  have hth : norm_bigint_id (.str "Sensor-42") "Things" = 863120950925020 := by decide
  have hlo : norm_bigint_id (.str "Sensor-42") "Locations" = 879468373683783 := by decide
  refine ⟨fun _ _ => rfl, fun _ _ => rfl, norm_str_of_parse, ?_, hth, hlo, ?_, ?_⟩
  · intro s kind hp
    rw [norm_str_of_hash s kind hp]
    exact hashId_range kind (stripWs (cps s))
  · rw [hth, hlo]
    decide
  · intro n s kind kind₂ hn hp
    rw [norm_str_of_hash s kind₂ hp]
    have hr := (hashId_range kind₂ (stripWs (cps s))).1
    show (n : ℤ) ≠ _
    omega

theorem claim_C7_witness :
    (parsePyInt (stripWs (cps " 42 ")) = some 42
      ∧ parsePyInt (stripWs (cps "Sensor-42")) = none)
    ∧ norm_bigint_id (.str " 42 ") "Things" = 42
    ∧ (800000000000000 ≤ norm_bigint_id (.str "Sensor-42") "Things"
      ∧ norm_bigint_id (.str "Sensor-42") "Things" < 900000000000000)
    ∧ norm_bigint_id (.int 7) "Things" ≠ norm_bigint_id (.str "Sensor-42") "Locations" := by
  refine ⟨⟨by decide, by decide⟩, ?_, ?_, ?_⟩
  · exact claim_C7.2.2.1 " 42 " "Things" 42 (by decide)
  · exact claim_C7.2.2.2.1 "Sensor-42" "Things" (by decide)
  · exact claim_C7.2.2.2.2.2.2.2 7 "Sensor-42" "Things" "Locations" (by norm_num)
      (by decide)

end GeoSensors
